import Mathlib

/-!
Shallow embedding of the arrdf in-memory RDF triple store.

The embedding follows the source files of the repository:
  - `src/node.rs`: `Node` is an `Arc<str>`; we model the allocation as a
    natural-number reference `ref` together with the pointed string `text`.
    Cloning a node is the identity on this value (both clones carry the same
    `ref`), while each fresh construction (`Node::blank`, `From<&str>`)
    receives a fresh `ref`.
  - `src/hash_graph/mod.rs`: `HashGraph` is a `HashMap<Node, HashSet<(Node,
    Node)>>`; we model it as an association list of entries, where lookups
    compare stored keys against the query with the `PartialEq` implementation
    of `Node` (`Node.beq` below), exactly as the hash map does.
  - `src/set.rs`: the generic set algebra over the `Graph` trait.
  - `src/graph.rs`: the derived trait methods (`extend`, `remove_all`,
    `is_valid_graph`, `sanitize`, the iteration-based `contains`).
  - `src/transaction/mod.rs`: `MutTransaction`, `commit` and `CachedQuery`.

In Rust, one allocation holds one string; two `Node` values with the same
allocation address always point at equal text.  A "heap" `H : Nat → String`
records the content of each allocation, and `NodeWF H n` states that node `n`
is consistent with that heap.  All well-formedness hypotheses below are of
this shape.
-/

/-- A `Node` (src/node.rs): an `Arc<str>`, modelled by the allocation
identity `ref` and the string contents `text`. -/
structure Node where
  ref : Nat
  text : String
deriving DecidableEq

/-- `Node::is_blank` (src/node.rs:61): the node is blank iff the referent
string is empty. -/
def Node.is_blank (n : Node) : Bool := n.text.isEmpty

/-- `impl PartialEq for Node` (src/node.rs:16-24): pointer equality for blank
nodes, string equality otherwise. -/
def Node.beq (a b : Node) : Bool :=
  if a.is_blank then a.ref == b.ref else a.text == b.text

/-- `Node::blank` (src/node.rs:55-59): a fresh allocation of the empty
string; the caller supplies the fresh allocation identity `r`. -/
def Node.blank (r : Nat) : Node := ⟨r, ""⟩

/-- `impl From<&str> for Node` (src/node.rs:8-14): copy the string into a
fresh allocation `r`. -/
def Node.fromStr (s : String) (r : Nat) : Node := ⟨r, s⟩

/-- `impl Hash for Node` (src/node.rs:26-34): the data fed to the hasher —
the pointer for a blank node, the string otherwise. -/
def Node.hashInput (n : Node) : Nat ⊕ String :=
  if n.is_blank then Sum.inl n.ref else Sum.inr n.text

/-- The equality class of a node under the program's `PartialEq`: blank nodes
are classified by allocation, other nodes by text.  This coincides with
`Node.hashInput`. -/
def Node.key (n : Node) : Nat ⊕ String :=
  if n.is_blank then Sum.inl n.ref else Sum.inr n.text

/-- Heap consistency: node `n` points at the contents the heap `H` records
for its allocation. -/
def NodeWF (H : Nat → String) (n : Node) : Prop := n.text = H n.ref

/-- A relationship entry of the subject-indexed store: a (predicate, object)
pair. -/
abbrev RelPair := Node × Node

/-- `PartialEq` on `(Node, Node)` pairs, as used by the `HashSet` of
relationships. -/
def relBeq (a b : RelPair) : Bool := a.1.beq b.1 && a.2.beq b.2

def relKey (r : RelPair) : (Nat ⊕ String) × (Nat ⊕ String) := (r.1.key, r.2.key)

def RelWF (H : Nat → String) (r : RelPair) : Prop := NodeWF H r.1 ∧ NodeWF H r.2

/-- A triple (subject, predicate, object). -/
abbrev Triple := Node × Node × Node

def tripleKey (t : Triple) : (Nat ⊕ String) × (Nat ⊕ String) × (Nat ⊕ String) :=
  (t.1.key, t.2.1.key, t.2.2.key)

def TripleWF (H : Nat → String) (t : Triple) : Prop :=
  NodeWF H t.1 ∧ NodeWF H t.2.1 ∧ NodeWF H t.2.2

/-- `HashGraph` (src/hash_graph/mod.rs:8-10): a map from subject to the set
of its (predicate, object) relationships, modelled as an association list. -/
structure HashGraph where
  nodes : List (Node × List RelPair)
deriving DecidableEq

/-- `HashGraph::new` (src/hash_graph/mod.rs:13-17). -/
def HashGraph.new : HashGraph := ⟨[]⟩

/-- `HashMap::get` on the subject index: the first (and, by the hash-map
invariant, only) entry whose stored key equals the query. -/
def HashGraph.getRels (g : HashGraph) (s : Node) : Option (List RelPair) :=
  (g.nodes.find? (fun e => e.1.beq s)).map Prod.snd

/-- `HashGraph::contains_triple` / `Graph::contains` for `HashGraph`
(src/hash_graph/mod.rs:74-80): subject lookup followed by a set membership
test of the (predicate, object) pair. -/
def HashGraph.contains (g : HashGraph) (s p o : Node) : Bool :=
  match g.getRels s with
  | some rels => rels.any (fun r => relBeq r (p, o))
  | none => false

/-- `HashGraph::len` (src/hash_graph/mod.rs:62-64): the sum of the
relationship-set sizes. -/
def HashGraph.len (g : HashGraph) : Nat :=
  (g.nodes.map (fun e => e.2.length)).sum

/-- `HashGraph::is_empty` (src/hash_graph/mod.rs:66-72). -/
def HashGraph.is_empty (g : HashGraph) : Bool :=
  if g.nodes.isEmpty then true else g.nodes.all (fun e => e.2.isEmpty)

/-- `HashGraph::triples` / the triple iterator (src/hash_graph/mod.rs:40-51):
flatten (subject, (predicate, object)) over all entries. -/
def HashGraph.triples (g : HashGraph) : List Triple :=
  g.nodes.flatMap (fun e => e.2.map (fun r => (e.1, r.1, r.2)))

/-- `HashSet::insert` on a relationship set: a no-op when an equal pair is
already present. -/
def insertRel (rels : List RelPair) (r : RelPair) : List RelPair :=
  if rels.any (fun r' => relBeq r' r) then rels else rels ++ [r]

/-- `HashMap::entry(subject).or_insert_with(HashSet::new).insert((p, o))`:
add the pair to the first entry whose key equals the subject, or append a
fresh entry. -/
def insertEntry (l : List (Node × List RelPair)) (s : Node) (r : RelPair) :
    List (Node × List RelPair) :=
  match l with
  | [] => [(s, [r])]
  | e :: rest =>
      if e.1.beq s then (e.1, insertRel e.2 r) :: rest
      else e :: insertEntry rest s r

/-- `HashGraph::insert` (src/hash_graph/mod.rs:88-93). -/
def HashGraph.insert (g : HashGraph) (s p o : Node) : HashGraph :=
  ⟨insertEntry g.nodes s (p, o)⟩

/-- `relationships.retain(|(p, o)| p != predicate || o != object)` inside
the entry found for the subject (src/hash_graph/mod.rs:95-99).  The filter
keeps a pair iff it differs from the removed one; an emptied relationship
set stays in the map as a stale entry. -/
def removeEntry (l : List (Node × List RelPair)) (s p o : Node) :
    List (Node × List RelPair) :=
  match l with
  | [] => []
  | e :: rest =>
      if e.1.beq s then
        (e.1, e.2.filter (fun r => !(r.1.beq p) || !(r.2.beq o))) :: rest
      else e :: removeEntry rest s p o

/-- `HashGraph::remove` (src/hash_graph/mod.rs:95-99). -/
def HashGraph.remove (g : HashGraph) (s p o : Node) : HashGraph :=
  ⟨removeEntry g.nodes s p o⟩

/-- `HashGraph::retain` (src/hash_graph/mod.rs:101-105): filter every
relationship set in place. -/
def HashGraph.retain (g : HashGraph) (f : Node → Node → Node → Bool) : HashGraph :=
  ⟨g.nodes.map (fun e => (e.1, e.2.filter (fun r => f e.1 r.1 r.2)))⟩

/-- `HashGraph::clear` (src/hash_graph.rs:97-99): drop all entries. -/
def HashGraph.clear (_g : HashGraph) : HashGraph := ⟨[]⟩

/-- `Graph::extend` (src/graph.rs:202-209): insert every triple of the
iterator in order. -/
def HashGraph.extend (g : HashGraph) (ts : List Triple) : HashGraph :=
  ts.foldl (fun acc t => acc.insert t.1 t.2.1 t.2.2) g

/-- `Graph::remove_all` (src/graph.rs:255-262): remove every triple of the
iterator in order. -/
def HashGraph.remove_all (g : HashGraph) (ts : List Triple) : HashGraph :=
  ts.foldl (fun acc t => acc.remove t.1 t.2.1 t.2.2) g

/-- `FromIterator for HashGraph` (src/hash_graph/mod.rs:108-131): collect an
iterator of triples into a fresh graph. -/
def HashGraph.fromTriples (ts : List Triple) : HashGraph :=
  HashGraph.new.extend ts

/-- The iteration-based containment definition (`Graph::contains` default,
src/graph.rs:122-125): some yielded triple matches componentwise under the
`PartialEq` of `Node`. -/
def HashGraph.iterContains (g : HashGraph) (s p o : Node) : Bool :=
  g.triples.any (fun t => t.1.beq s && t.2.1.beq p && t.2.2.beq o)

/-- `set::difference` (src/set.rs:3-12): triples of `lhs` not contained in
`rhs`. -/
def setDifference (lhs rhs : HashGraph) : List Triple :=
  lhs.triples.filter (fun t => ! rhs.contains t.1 t.2.1 t.2.2)

/-- `set::intersection` (src/set.rs:25-34): triples of `lhs` contained in
`rhs`. -/
def setIntersection (lhs rhs : HashGraph) : List Triple :=
  lhs.triples.filter (fun t => rhs.contains t.1 t.2.1 t.2.2)

/-- `set::union` (src/set.rs:36-45): all of `lhs` chained with
`difference(rhs, lhs)`. -/
def setUnion (lhs rhs : HashGraph) : List Triple :=
  lhs.triples ++ setDifference rhs lhs

/-- `set::is_subset` (src/set.rs:47-53). -/
def setIsSubset (lhs rhs : HashGraph) : Bool :=
  lhs.triples.all (fun t => rhs.contains t.1 t.2.1 t.2.2)

/-- `set::is_disjoint` (src/set.rs:63-69): the intersection yields nothing. -/
def setIsDisjoint (lhs rhs : HashGraph) : Bool :=
  (setIntersection lhs rhs).isEmpty

/-! ## Well-formedness of a `HashGraph`

A Rust `HashMap` keeps at most one entry per `PartialEq`-class of keys and a
`HashSet` at most one element per class.  `NodesWF` states this for the
association-list model, together with heap consistency of all stored nodes. -/

abbrev NKey := Nat ⊕ String

abbrev TKey := NKey × NKey × NKey

def EntryWF (H : Nat → String) (e : Node × List RelPair) : Prop :=
  NodeWF H e.1 ∧ ∀ r ∈ e.2, RelWF H r

def NodesWF (H : Nat → String) (l : List (Node × List RelPair)) : Prop :=
  (∀ e ∈ l, EntryWF H e ∧ (e.2.map relKey).Nodup) ∧
  (l.map (fun e => e.1.key)).Nodup

def GraphWF (H : Nat → String) (g : HashGraph) : Prop := NodesWF H g.nodes

/-! ## Reachable `HashGraph` states (claim C7)

A graph operation from the `Graph` capability set, applied generically.  The
reachable states are exactly the results of running an arbitrary operation
sequence from the empty store `HashGraph::new`. -/

inductive GOp where
  | ins (s p o : Node)
  | rem (s p o : Node)
  | ret (f : Node → Node → Node → Bool)
  | ext (ts : List Triple)

def GOp.apply (g : HashGraph) : GOp → HashGraph
  | .ins s p o => g.insert s p o
  | .rem s p o => g.remove s p o
  | .ret f => g.retain f
  | .ext ts => g.extend ts

/-- Run a sequence of mutations from the empty store. -/
def runGOps (ops : List GOp) : HashGraph :=
  ops.foldl GOp.apply HashGraph.new

/-- Heap consistency of the node arguments of one operation. -/
def GOpWF (H : Nat → String) : GOp → Prop
  | .ins s p o => NodeWF H s ∧ NodeWF H p ∧ NodeWF H o
  | .rem _ _ _ => True
  | .ret _ => True
  | .ext ts => ∀ t ∈ ts, TripleWF H t

instance (H : Nat → String) (n : Node) : Decidable (NodeWF H n) := by
  unfold NodeWF
  infer_instance

instance (H : Nat → String) (t : Triple) : Decidable (TripleWF H t) := by
  unfold TripleWF
  infer_instance

instance (H : Nat → String) (op : GOp) : Decidable (GOpWF H op) := by
  cases op <;> simp only [GOpWF] <;> infer_instance

/-! ## Well-formedness predicate and sanitization (claims C9) -/

/-- Modelled from the spec: the node-classification predicates
`Node::is_literal` and `Node::is_iri` are external collaborators ("IRI
syntactic validation (a predicate `Node::is_iri`/`is_literal` assumed
available)" is out of scope of the core, and neither function is defined
under src/).  The spec only requires that they are predicates on nodes, so
the embedding abstracts them as an arbitrary pair of Boolean predicates. -/
structure NodeClass where
  lit : Node → Bool
  iri : Node → Bool

/-- `Graph::is_valid_graph` (src/graph.rs:134-136): no iterated triple has a
literal subject or a non-IRI predicate. -/
def HashGraph.is_valid_graph (C : NodeClass) (g : HashGraph) : Bool :=
  g.triples.all (fun t => !(C.lit t.1) && C.iri t.2.1)

/-- `Graph::sanitize` (src/graph.rs:288-290): retain only triples whose
subject is not a literal and whose predicate is an IRI. -/
def HashGraph.sanitize (C : NodeClass) (g : HashGraph) : HashGraph :=
  g.retain (fun s p _ => !(C.lit s) && C.iri p)

/-! ## The transaction subsystem (src/transaction/mod.rs) -/

/-- The lock-protected interior of a `TransactionGraph`
(src/transaction/mod.rs:12-15): the store plus the revision counter. -/
structure IntTransactionGraph where
  graph : HashGraph
  revision : Nat
deriving DecidableEq

/-- `MutTransaction` (src/transaction/mod.rs:107-120): the write guard plus
the two diff buffers, both empty at creation. -/
structure MutTransaction where
  guard : IntTransactionGraph
  added_triples : HashGraph
  removed_triples : HashGraph
deriving DecidableEq

/-- `MutTransaction::new` (src/transaction/mod.rs:114-120). -/
def MutTransaction.new (guard : IntTransactionGraph) : MutTransaction :=
  ⟨guard, HashGraph.new, HashGraph.new⟩

/-- `MutTransaction::is_valid` (src/transaction/mod.rs:122-125). -/
def MutTransaction.is_valid (t : MutTransaction) : Bool :=
  setIsSubset t.removed_triples t.guard.graph &&
    setIsDisjoint t.guard.graph t.added_triples

/-- `MutTransaction::len` (src/transaction/mod.rs:139-141). -/
def MutTransaction.len (t : MutTransaction) : Nat :=
  t.guard.graph.len + t.added_triples.len - t.removed_triples.len

/-- `MutTransaction::contains` (src/transaction/mod.rs:143-151). -/
def MutTransaction.contains (t : MutTransaction) (s p o : Node) : Bool :=
  if t.added_triples.contains s p o then true
  else if t.removed_triples.contains s p o then false
  else t.guard.graph.contains s p o

/-- `MutTransaction::iter` (src/transaction/mod.rs:153-158):
`difference(underlying, removed)` chained with `added.iter()`. -/
def MutTransaction.iter (t : MutTransaction) : List Triple :=
  setDifference t.guard.graph t.removed_triples ++ t.added_triples.triples

/-- `MutTransaction::insert` (src/transaction/mod.rs:160-170). -/
def MutTransaction.insert (t : MutTransaction) (s p o : Node) : MutTransaction :=
  if t.removed_triples.contains s p o then
    { t with removed_triples := t.removed_triples.remove s p o }
  else if !(t.guard.graph.contains s p o) then
    { t with added_triples := t.added_triples.insert s p o }
  else t

/-- `MutTransaction::remove` (src/transaction/mod.rs:172-183); the final
`clone_insert` clones the borrowed nodes, which is the identity in this
model. -/
def MutTransaction.remove (t : MutTransaction) (s p o : Node) : MutTransaction :=
  if t.added_triples.contains s p o then
    { t with added_triples := t.added_triples.remove s p o }
  else if t.guard.graph.contains s p o then
    { t with removed_triples := t.removed_triples.insert s p o }
  else t

/-- `Graph::remove_all` default applied to a mutable transaction
(src/graph.rs:255-262). -/
def MutTransaction.remove_all (t : MutTransaction) (ts : List Triple) :
    MutTransaction :=
  ts.foldl (fun acc tr => acc.remove tr.1 tr.2.1 tr.2.2) t

/-- `MutTransaction::retain` (src/transaction/mod.rs:185-196): collect the
non-surviving triples of the current view into a `HashGraph`, then bulk
remove them. -/
def MutTransaction.retain (t : MutTransaction)
    (f : Node → Node → Node → Bool) : MutTransaction :=
  t.remove_all
    (HashGraph.fromTriples
      (t.iter.filter (fun tr => ! f tr.1 tr.2.1 tr.2.2))).triples

/-- `MutTransaction::clear` (src/transaction/mod.rs:198-205): empty the
added buffer and stage every underlying triple as removed. -/
def MutTransaction.clear (t : MutTransaction) : MutTransaction :=
  { t with added_triples := t.added_triples.clear,
           removed_triples := t.removed_triples.extend t.guard.graph.triples }

/-- `MutTransaction::commit` (src/transaction/mod.rs:127-135): apply the
removals, then the additions, then advance the revision. -/
def MutTransaction.commit (t : MutTransaction) : IntTransactionGraph :=
  { graph := (t.guard.graph.remove_all t.removed_triples.triples).extend
      t.added_triples.triples,
    revision := t.guard.revision + 1 }

/-- A mutation call on an open mutable transaction. -/
inductive TOp where
  | ins (s p o : Node)
  | rem (s p o : Node)
  | ret (f : Node → Node → Node → Bool)
  | clr

def TOp.apply (t : MutTransaction) : TOp → MutTransaction
  | .ins s p o => t.insert s p o
  | .rem s p o => t.remove s p o
  | .ret f => t.retain f
  | .clr => t.clear

/-- Run a sequence of mutation calls on a freshly opened transaction. -/
def runTOps (st : IntTransactionGraph) (ops : List TOp) : MutTransaction :=
  ops.foldl TOp.apply (MutTransaction.new st)

def TOpWF (H : Nat → String) : TOp → Prop
  | .ins s p o => NodeWF H s ∧ NodeWF H p ∧ NodeWF H o
  | .rem s p o => NodeWF H s ∧ NodeWF H p ∧ NodeWF H o
  | .ret _ => True
  | .clr => True

instance (H : Nat → String) (op : TOp) : Decidable (TOpWF H op) := by
  cases op <;> simp only [TOpWF] <;> infer_instance

/-- The semantic bookkeeping invariant of an open transaction: all three
stores are well-formed hash maps, every staged-removed class is present in
the underlying store, and no staged-added class is. -/
def TxInv (H : Nat → String) (t : MutTransaction) : Prop :=
  GraphWF H t.guard.graph ∧ GraphWF H t.added_triples ∧
    GraphWF H t.removed_triples ∧
    (∀ k : TKey, k ∈ t.removed_triples.triples.map tripleKey →
      k ∈ t.guard.graph.triples.map tripleKey) ∧
    (∀ k : TKey, k ∈ t.added_triples.triples.map tripleKey →
      k ∉ t.guard.graph.triples.map tripleKey)

/-! ## Cached queries and lock outcomes (src/transaction/mod.rs) -/

/-- `CachedQuery` (src/transaction/mod.rs:208-213): the query closure, the
memoized result, and the revision at which it was computed.  (The handle
clone is modelled by passing read-lock results explicitly.) -/
structure CachedQuery (T : Type) where
  query : HashGraph → T
  result : T
  current_revision : Nat

/-- `CachedQuery::new` (src/transaction/mod.rs:215-228): evaluate the query
under the read guard and record the current revision. -/
def CachedQuery.new {T : Type} (query : HashGraph → T)
    (guard : IntTransactionGraph) : CachedQuery T :=
  { query := query, result := query guard.graph,
    current_revision := guard.revision }

/-- The outcome of `RwLock::read()` / `RwLock::write()`:
`Ok(guard)` or `Err(PoisonError)`. -/
inductive ReadResult where
  | ok (guard : IntTransactionGraph)
  | poisoned

/-- The outcome of `RwLock::try_read()` / `try_write()`: `Ok(guard)`,
`Err(TryLockError::WouldBlock)` or `Err(TryLockError::Poisoned)`. -/
inductive TryReadResult where
  | ok (guard : IntTransactionGraph)
  | wouldBlock
  | poisoned

/-- What an accessor does with the lock result: return a value, abort the
process (`panic!` / `.unwrap()` on `Err`), or report unavailability
(`None`). -/
inductive Outcome (α : Type) where
  | ok (a : α)
  | panic
  | unavailable
deriving DecidableEq

/-- `TransactionGraph::transaction` (src/transaction/mod.rs:45-47):
`self.graph.read().unwrap()` — panics on a poisoned lock. -/
def transactionAccess : ReadResult → Outcome IntTransactionGraph
  | .ok guard => .ok guard
  | .poisoned => .panic

/-- `TransactionGraph::try_transaction` (src/transaction/mod.rs:49-56):
`WouldBlock` becomes `None`, poisoning panics explicitly. -/
def tryTransactionAccess : TryReadResult → Outcome IntTransactionGraph
  | .ok guard => .ok guard
  | .wouldBlock => .unavailable
  | .poisoned => .panic

/-- `TransactionGraph::mut_transaction` (src/transaction/mod.rs:58-63):
`self.graph.write().map(MutTransaction::new).unwrap()`. -/
def mutTransactionAccess : ReadResult → Outcome MutTransaction
  | .ok guard => .ok (MutTransaction.new guard)
  | .poisoned => .panic

/-- `TransactionGraph::try_mut_transaction` (src/transaction/mod.rs:65-72). -/
def tryMutTransactionAccess : TryReadResult → Outcome MutTransaction
  | .ok guard => .ok (MutTransaction.new guard)
  | .wouldBlock => .unavailable
  | .poisoned => .panic

/-- `TransactionGraph::cached_query` (src/transaction/mod.rs:74-77):
`self.graph.read().unwrap()` then `CachedQuery::new`. -/
def cachedQueryAccess {T : Type} (query : HashGraph → T) :
    ReadResult → Outcome (CachedQuery T)
  | .ok guard => .ok (CachedQuery.new query guard)
  | .poisoned => .panic

/-- `TransactionGraph::try_cached_query` (src/transaction/mod.rs:79-86). -/
def tryCachedQueryAccess {T : Type} (query : HashGraph → T) :
    TryReadResult → Outcome (CachedQuery T)
  | .ok guard => .ok (CachedQuery.new query guard)
  | .wouldBlock => .unavailable
  | .poisoned => .panic

/-- `CachedQuery::update` (src/transaction/mod.rs:231-238): `if let
Ok(guard) = self.graph.graph.read()` — recompute when the revision advanced;
an `Err` (poisoned lock) falls through and leaves the cache untouched. -/
def CachedQuery.update {T : Type} (c : CachedQuery T) :
    ReadResult → CachedQuery T
  | .ok guard =>
      if guard.revision > c.current_revision then
        { c with result := c.query guard.graph,
                 current_revision := guard.revision }
      else c
  | .poisoned => c

/-- `CachedQuery::update` as an access outcome: its body has no panic path —
it always returns normally with the (possibly unchanged) cache. -/
def cachedUpdateOutcome {T : Type} (c : CachedQuery T) (r : ReadResult) :
    Outcome (CachedQuery T) :=
  Outcome.ok (c.update r)

/-! ## Concrete fixtures for witnesses and scenarios -/

def tbA : Node := ⟨0, "a"⟩

def tbB : Node := ⟨1, "b"⟩

/-- A blank node (empty referent), as `Node::blank` allocates. -/
def tbC : Node := ⟨2, ""⟩

def tbP : Node := ⟨3, "p"⟩

def tbQ : Node := ⟨4, "q"⟩

def tbR : Node := ⟨5, "r"⟩

/-- The allocation heap of the fixture nodes. -/
def tbHeap : Nat → String
  | 0 => "a"
  | 1 => "b"
  | 2 => ""
  | 3 => "p"
  | 4 => "q"
  | 5 => "r"
  | _ => ""

/-- A three-triple store, the third triple involving the blank node. -/
def tbGraph : HashGraph :=
  ((HashGraph.new.insert tbA tbP tbB).insert tbB tbQ tbC).insert tbC tbR tbA

def tbStore : IntTransactionGraph := ⟨tbGraph, 0⟩

/-- A cached `len` query initialized against the three-triple store. -/
def tbCached : CachedQuery Nat := CachedQuery.new HashGraph.len tbStore

/-- A mutable transaction staging one extra triple. -/
def tbTx : MutTransaction := (MutTransaction.new tbStore).insert tbA tbP tbA

/-- The handle state after committing that transaction. -/
def tbCommitted : IntTransactionGraph := tbTx.commit

/-- A second graph overlapping `tbGraph` in one triple. -/
def tbOther : HashGraph :=
  (HashGraph.new.insert tbA tbP tbB).insert tbB tbQ tbB

instance (H : Nat → String) (r : RelPair) : Decidable (RelWF H r) := by
  unfold RelWF
  infer_instance

instance (H : Nat → String) (e : Node × List RelPair) :
    Decidable (EntryWF H e) := by
  unfold EntryWF
  infer_instance

instance (H : Nat → String) (l : List (Node × List RelPair)) :
    Decidable (NodesWF H l) := by
  unfold NodesWF
  infer_instance

instance (H : Nat → String) (g : HashGraph) : Decidable (GraphWF H g) := by
  unfold GraphWF
  infer_instance

/-! ## Theorems -/

theorem Node.key_eq_hashInput (n : Node) : n.key = n.hashInput := rfl

theorem Node.is_blank_iff (n : Node) : n.is_blank = true ↔ n.text = "" := by
  simp [Node.is_blank, String.isEmpty_iff]

/-- Under heap consistency, the program's `PartialEq` coincides with equality
of equality-classes. -/
theorem Node.beq_iff_key {H : Nat → String} {a b : Node}
    (ha : NodeWF H a) (hb : NodeWF H b) :
    a.beq b = true ↔ a.key = b.key := by
  unfold Node.beq Node.key
  by_cases hab : a.is_blank = true
  · simp only [hab, if_true]
    by_cases hbb : b.is_blank = true
    · simp [hbb, Nat.beq_eq_true_eq]
    · simp only [Bool.not_eq_true] at hbb
      simp only [hbb, Bool.false_eq_true, if_false, Nat.beq_eq_true_eq]
      constructor
      · intro hr
        exfalso
        have hta : a.text = "" := (Node.is_blank_iff a).mp hab
        have htb : b.text ≠ "" := by
          intro h
          exact absurd ((Node.is_blank_iff b).mpr h) (by simp [hbb])
        apply htb
        rw [hb, ← hr, ← ha, hta]
      · intro h
        exact absurd h (by simp)
  · simp only [Bool.not_eq_true] at hab
    simp only [hab, Bool.false_eq_true, if_false, beq_iff_eq]
    by_cases hbb : b.is_blank = true
    · simp only [hbb, if_true]
      constructor
      · intro ht
        exfalso
        have htb : b.text = "" := (Node.is_blank_iff b).mp hbb
        have hta : a.text ≠ "" := by
          intro h
          exact absurd ((Node.is_blank_iff a).mpr h) (by simp [hab])
        exact hta (ht.trans htb)
      · intro h
        exact absurd h (by simp)
    · simp only [Bool.not_eq_true] at hbb
      simp [hbb]

theorem Node.beq_refl (n : Node) : n.beq n = true := by
  unfold Node.beq
  by_cases h : n.is_blank = true <;> simp [h]

theorem relBeq_iff_key {H : Nat → String} {a b : RelPair}
    (ha : RelWF H a) (hb : RelWF H b) :
    relBeq a b = true ↔ relKey a = relKey b := by
  unfold relBeq relKey
  rw [Bool.and_eq_true, Node.beq_iff_key ha.1 hb.1, Node.beq_iff_key ha.2 hb.2,
    Prod.mk.injEq]

theorem nodesWF_nil (H : Nat → String) : NodesWF H [] := by
  constructor
  · intro e he
    simp at he
  · simp

theorem nodesWF_cons {H : Nat → String} {e : Node × List RelPair}
    {l : List (Node × List RelPair)} :
    NodesWF H (e :: l) ↔
      (EntryWF H e ∧ (e.2.map relKey).Nodup) ∧ NodesWF H l ∧
        (∀ e' ∈ l, e'.1.key ≠ e.1.key) := by
  unfold NodesWF
  simp only [List.mem_cons, List.map_cons, List.nodup_cons, List.mem_map]
  constructor
  · rintro ⟨hall, hnotin, hnd⟩
    refine ⟨hall e (Or.inl rfl), ⟨fun e' he' => hall e' (Or.inr he'), hnd⟩, ?_⟩
    intro e' he' hk
    exact hnotin ⟨e', he', hk⟩
  · rintro ⟨he, ⟨hall, hnd⟩, hkeys⟩
    refine ⟨?_, ?_, hnd⟩
    · rintro e' (rfl | he')
      · exact he
      · exact hall e' he'
    · rintro ⟨e', he', hk⟩
      exact hkeys e' he' hk

theorem HashGraph.triples_mk (l : List (Node × List RelPair)) :
    (HashGraph.mk l).triples =
      l.flatMap (fun e => e.2.map (fun r => (e.1, r.1, r.2))) := rfl

theorem HashGraph.triples_cons (e : Node × List RelPair)
    (l : List (Node × List RelPair)) :
    (HashGraph.mk (e :: l)).triples =
      e.2.map (fun r => (e.1, r.1, r.2)) ++ (HashGraph.mk l).triples := by
  simp [HashGraph.triples]

/-- The length of a `HashGraph` is the number of triples its iterator
yields (pure structural fact, no invariant needed). -/
theorem HashGraph.len_eq_triples_length (g : HashGraph) :
    g.len = g.triples.length := by
  rcases g with ⟨l⟩
  induction l with
  | nil => rfl
  | cons e rest ih =>
      have h1 : HashGraph.len ⟨e :: rest⟩ = e.2.length + HashGraph.len ⟨rest⟩ := by
        simp [HashGraph.len]
      have h2 : (HashGraph.mk (e :: rest)).triples.length
          = e.2.length + (HashGraph.mk rest).triples.length := by
        rw [HashGraph.triples_cons]
        simp
      rw [h1, h2, ih]

/-- `is_empty` is equivalent to `len == 0` (pure structural fact). -/
theorem HashGraph.is_empty_iff_len (g : HashGraph) :
    g.is_empty = true ↔ g.len = 0 := by
  unfold HashGraph.is_empty HashGraph.len
  by_cases h : g.nodes.isEmpty
  · rw [List.isEmpty_iff] at h
    simp [h]
  · simp only [h, Bool.false_eq_true, if_false, List.all_eq_true]
    rw [List.sum_eq_zero_iff]
    constructor
    · intro hall x hx
      rcases List.mem_map.mp hx with ⟨e, he, rfl⟩
      simpa [List.isEmpty_iff, List.length_eq_zero] using hall e he
    · intro hall e he
      have := hall e.2.length (List.mem_map.mpr ⟨e, he, rfl⟩)
      simpa [List.isEmpty_iff, List.length_eq_zero] using this

theorem HashGraph.mem_triples {g : HashGraph} {t : Triple} :
    t ∈ g.triples ↔ ∃ e ∈ g.nodes, ∃ r ∈ e.2, t = (e.1, r.1, r.2) := by
  unfold HashGraph.triples
  simp only [List.mem_flatMap, List.mem_map]
  constructor
  · rintro ⟨e, he, r, hr, rfl⟩
    exact ⟨e, he, r, hr, rfl⟩
  · rintro ⟨e, he, r, hr, rfl⟩
    exact ⟨e, he, r, hr, rfl⟩

theorem tripleWF_of_mem {H : Nat → String} {g : HashGraph}
    (hw : GraphWF H g) {t : Triple} (ht : t ∈ g.triples) : TripleWF H t := by
  rcases HashGraph.mem_triples.mp ht with ⟨e, he, r, hr, rfl⟩
  rcases hw.1 e he with ⟨⟨hes, herels⟩, -⟩
  rcases herels r hr with ⟨h1, h2⟩
  exact ⟨hes, h1, h2⟩

/-- The triple keys of a well-formed graph are pairwise distinct. -/
theorem HashGraph.keys_nodup {H : Nat → String} {g : HashGraph}
    (hw : GraphWF H g) : (g.triples.map tripleKey).Nodup := by
  unfold HashGraph.triples
  rw [List.map_flatMap]
  rw [List.nodup_flatMap]
  constructor
  · intro e he
    have hinner : tripleKey ∘ (fun r : RelPair => (e.1, r.1, r.2)) =
        (fun k : NKey × NKey => (e.1.key, k.1, k.2)) ∘ relKey := by
      funext r
      rfl
    rw [List.map_map, hinner, ← List.map_map]
    apply List.Nodup.map
    · intro x y hxy
      simpa [Prod.ext_iff] using hxy
    · exact (hw.1 e he).2
  · have hpw : g.nodes.Pairwise (fun a b => a.1.key ≠ b.1.key) :=
      List.pairwise_map.mp hw.2
    refine hpw.imp ?_
    intro a b hab k hka hkb
    simp only [List.map_map, List.mem_map, Function.comp] at hka hkb
    rcases hka with ⟨r, -, rfl⟩
    rcases hkb with ⟨r', -, hk⟩
    apply hab
    have := congrArg Prod.fst hk
    simpa [tripleKey] using this.symm

theorem HashGraph.contains_cons (e : Node × List RelPair)
    (l : List (Node × List RelPair)) (s p o : Node) :
    (HashGraph.mk (e :: l)).contains s p o =
      if e.1.beq s then e.2.any (fun r => relBeq r (p, o))
      else (HashGraph.mk l).contains s p o := by
  unfold HashGraph.contains HashGraph.getRels
  by_cases h : e.1.beq s = true
  · simp [List.find?_cons, h]
  · simp [List.find?_cons, h]

/-- Characterization of `HashGraph::contains` on a well-formed graph: the
triple's equality-class occurs among the iterated triples' classes. -/
theorem HashGraph.contains_iff_key_mem {H : Nat → String} {g : HashGraph}
    (hw : GraphWF H g) {s p o : Node}
    (hs : NodeWF H s) (hp : NodeWF H p) (ho : NodeWF H o) :
    g.contains s p o = true ↔
      tripleKey (s, p, o) ∈ g.triples.map tripleKey := by
  rcases g with ⟨l⟩
  induction l with
  | nil => simp [HashGraph.contains, HashGraph.getRels, HashGraph.triples]
  | cons e rest ih =>
      rcases nodesWF_cons.mp hw with ⟨⟨hewf, hrelnd⟩, hrest, hfresh⟩
      have hkeys : (HashGraph.mk (e :: rest)).triples.map tripleKey =
          e.2.map (fun r => (e.1.key, r.1.key, r.2.key)) ++
            (HashGraph.mk rest).triples.map tripleKey := by
        rw [HashGraph.triples_cons, List.map_append, List.map_map]
        rfl
      rw [HashGraph.contains_cons, hkeys, List.mem_append]
      by_cases h : e.1.beq s = true
      · have hek : e.1.key = s.key := (Node.beq_iff_key hewf.1 hs).mp h
        simp only [h, if_true, List.any_eq_true]
        constructor
        · rintro ⟨r, hr, hrel⟩
          left
          have hkr : relKey r = relKey (p, o) :=
            (relBeq_iff_key (hewf.2 r hr) ⟨hp, ho⟩).mp hrel
          refine List.mem_map.mpr ⟨r, hr, ?_⟩
          have h1 : r.1.key = p.key := congrArg Prod.fst hkr
          have h2 : r.2.key = o.key := congrArg Prod.snd hkr
          simp [tripleKey, hek, h1, h2]
        · rintro (hin | hin)
          · rcases List.mem_map.mp hin with ⟨r, hr, hkr⟩
            refine ⟨r, hr, ?_⟩
            apply (relBeq_iff_key (hewf.2 r hr) ⟨hp, ho⟩).mpr
            have h1 : r.1.key = p.key := by
              have := congrArg (fun k : TKey => k.2.1) hkr
              simpa [tripleKey] using this
            have h2 : r.2.key = o.key := by
              have := congrArg (fun k : TKey => k.2.2) hkr
              simpa [tripleKey] using this
            simp [relKey, h1, h2]
          · exfalso
            rcases List.mem_map.mp hin with ⟨t, htmem, hkt⟩
            rcases HashGraph.mem_triples.mp htmem with ⟨e', he', r, hr, rfl⟩
            have : e'.1.key = s.key := by
              have := congrArg (fun k : TKey => k.1) hkt
              simpa [tripleKey] using this
            exact hfresh e' he' (this.trans hek.symm)
      · have hek : e.1.key ≠ s.key := by
          intro hk
          exact h ((Node.beq_iff_key hewf.1 hs).mpr hk)
        simp only [h, Bool.false_eq_true, if_false]
        rw [ih hrest]
        constructor
        · intro hin
          right
          exact hin
        · rintro (hin | hin)
          · exfalso
            rcases List.mem_map.mp hin with ⟨r, hr, hkr⟩
            apply hek
            have := congrArg (fun k : TKey => k.1) hkr
            simpa [tripleKey] using this
          · exact hin

/-- Characterization of the iteration-based containment test (the `Graph`
trait default) on any graph whose stored nodes are heap-consistent. -/
theorem HashGraph.iterContains_iff_key_mem {H : Nat → String} {g : HashGraph}
    (hw : GraphWF H g) {s p o : Node}
    (hs : NodeWF H s) (hp : NodeWF H p) (ho : NodeWF H o) :
    g.iterContains s p o = true ↔
      tripleKey (s, p, o) ∈ g.triples.map tripleKey := by
  unfold HashGraph.iterContains
  rw [List.any_eq_true]
  constructor
  · rintro ⟨t, ht, hmatch⟩
    rcases tripleWF_of_mem hw ht with ⟨h1, h2, h3⟩
    simp only [Bool.and_eq_true] at hmatch
    refine List.mem_map.mpr ⟨t, ht, ?_⟩
    have k1 : t.1.key = s.key := (Node.beq_iff_key h1 hs).mp hmatch.1.1
    have k2 : t.2.1.key = p.key := (Node.beq_iff_key h2 hp).mp hmatch.1.2
    have k3 : t.2.2.key = o.key := (Node.beq_iff_key h3 ho).mp hmatch.2
    simp [tripleKey, k1, k2, k3]
  · intro hin
    rcases List.mem_map.mp hin with ⟨t, ht, hkt⟩
    rcases tripleWF_of_mem hw ht with ⟨h1, h2, h3⟩
    refine ⟨t, ht, ?_⟩
    have k1 : t.1.key = s.key := by
      have := congrArg (fun k : TKey => k.1) hkt
      simpa [tripleKey] using this
    have k2 : t.2.1.key = p.key := by
      have := congrArg (fun k : TKey => k.2.1) hkt
      simpa [tripleKey] using this
    have k3 : t.2.2.key = o.key := by
      have := congrArg (fun k : TKey => k.2.2) hkt
      simpa [tripleKey] using this
    simp only [Bool.and_eq_true]
    exact ⟨⟨(Node.beq_iff_key h1 hs).mpr k1, (Node.beq_iff_key h2 hp).mpr k2⟩,
      (Node.beq_iff_key h3 ho).mpr k3⟩

theorem HashGraph.len_mk_cons (e : Node × List RelPair)
    (l : List (Node × List RelPair)) :
    (HashGraph.mk (e :: l)).len = e.2.length + (HashGraph.mk l).len := by
  simp [HashGraph.len]

theorem relAny_iff_key_mem {H : Nat → String} {rels : List RelPair} {r : RelPair}
    (hall : ∀ r' ∈ rels, RelWF H r') (hr : RelWF H r) :
    rels.any (fun r' => relBeq r' r) = true ↔ relKey r ∈ rels.map relKey := by
  rw [List.any_eq_true]
  constructor
  · rintro ⟨r', hr', hb⟩
    exact List.mem_map.mpr ⟨r', hr', (relBeq_iff_key (hall r' hr') hr).mp hb⟩
  · intro hin
    rcases List.mem_map.mp hin with ⟨r', hr', hk⟩
    exact ⟨r', hr', (relBeq_iff_key (hall r' hr') hr).mpr hk⟩

theorem insertRel_length (rels : List RelPair) (r : RelPair) :
    (insertRel rels r).length =
      if rels.any (fun r' => relBeq r' r) then rels.length
      else rels.length + 1 := by
  unfold insertRel
  split <;> simp

theorem insertRel_mem {rels : List RelPair} {r r' : RelPair}
    (h : r' ∈ insertRel rels r) : r' ∈ rels ∨ r' = r := by
  unfold insertRel at h
  split at h
  · exact Or.inl h
  · rcases List.mem_append.mp h with h1 | h1
    · exact Or.inl h1
    · simp at h1
      exact Or.inr h1

theorem insertRel_key_mem {H : Nat → String} {rels : List RelPair} {r : RelPair}
    (hall : ∀ r' ∈ rels, RelWF H r') (hr : RelWF H r) (k : NKey × NKey) :
    k ∈ (insertRel rels r).map relKey ↔
      k ∈ rels.map relKey ∨ k = relKey r := by
  unfold insertRel
  by_cases h : rels.any (fun r' => relBeq r' r) = true
  · have := (relAny_iff_key_mem hall hr).mp h
    simp only [h, if_true]
    constructor
    · exact Or.inl
    · rintro (hk | rfl)
      · exact hk
      · exact this
  · simp [h]

theorem insertRel_nodup {H : Nat → String} {rels : List RelPair} {r : RelPair}
    (hall : ∀ r' ∈ rels, RelWF H r') (hr : RelWF H r)
    (hnd : (rels.map relKey).Nodup) : ((insertRel rels r).map relKey).Nodup := by
  unfold insertRel
  by_cases h : rels.any (fun r' => relBeq r' r) = true
  · simpa [h] using hnd
  · have hnot : relKey r ∉ rels.map relKey := by
      intro hk
      exact h ((relAny_iff_key_mem hall hr).mpr hk)
    simp only [h, Bool.false_eq_true, if_false, List.map_append, List.map_cons,
      List.map_nil]
    rw [List.nodup_append]
    refine ⟨hnd, List.nodup_singleton _, ?_⟩
    intro x hx
    simp only [List.mem_singleton]
    intro hxk
    exact hnot (hxk ▸ hx)

/-- Every entry of `insertEntry l s r` either keeps the subject node of an
existing entry or is the freshly appended `(s, [r])`. -/
theorem insertEntry_subject {s : Node} {r : RelPair} :
    ∀ {l : List (Node × List RelPair)}, ∀ e' ∈ insertEntry l s r,
      (e'.1 ∈ l.map Prod.fst) ∨ e' = (s, [r]) := by
  intro l
  induction l with
  | nil =>
      intro e' he'
      simp only [insertEntry] at he'
      right
      simpa using he'
  | cons e rest ih =>
      intro e' he'
      unfold insertEntry at he'
      by_cases h : e.1.beq s = true
      · simp only [h, if_true] at he'
        rcases List.mem_cons.mp he' with rfl | he2
        · exact Or.inl (by simp)
        · exact Or.inl (List.mem_cons_of_mem _ (List.mem_map.mpr ⟨e', he2, rfl⟩))
      · simp only [h, Bool.false_eq_true, if_false] at he'
        rcases List.mem_cons.mp he' with rfl | he2
        · exact Or.inl (by simp)
        · rcases ih e' he2 with h2 | h2
          · exact Or.inl (List.mem_cons_of_mem _ h2)
          · exact Or.inr h2

/-- `insert` preserves the hash-map well-formedness invariant. -/
theorem HashGraph.insert_wf {H : Nat → String} {g : HashGraph} {s p o : Node}
    (hw : GraphWF H g) (hs : NodeWF H s) (hp : NodeWF H p) (ho : NodeWF H o) :
    GraphWF H (g.insert s p o) := by
  rcases g with ⟨l⟩
  induction l with
  | nil =>
      refine nodesWF_cons.mpr ⟨⟨⟨hs, ?_⟩, ?_⟩, nodesWF_nil H, ?_⟩ <;> simp
      exact ⟨hp, ho⟩
  | cons e rest ih =>
      rcases nodesWF_cons.mp hw with ⟨⟨hewf, hrelnd⟩, hrest, hfresh⟩
      show NodesWF H (insertEntry (e :: rest) s (p, o))
      unfold insertEntry
      by_cases h : e.1.beq s = true
      · simp only [h, if_true]
        refine nodesWF_cons.mpr ⟨⟨⟨hewf.1, ?_⟩, ?_⟩, hrest, hfresh⟩
        · intro r hr
          rcases insertRel_mem hr with h1 | rfl
          · exact hewf.2 r h1
          · exact ⟨hp, ho⟩
        · exact insertRel_nodup hewf.2 ⟨hp, ho⟩ hrelnd
      · simp only [h, Bool.false_eq_true, if_false]
        have hirest : NodesWF H (insertEntry rest s (p, o)) := ih hrest
        refine nodesWF_cons.mpr ⟨⟨hewf, hrelnd⟩, hirest, ?_⟩
        intro e' he' hk
        have hek : e.1.key ≠ s.key := by
          intro hkk
          exact h ((Node.beq_iff_key hewf.1 hs).mpr hkk)
        rcases insertEntry_subject e' he' with h2 | rfl
        · rcases List.mem_map.mp h2 with ⟨e2, he2, hke2⟩
          exact hfresh e2 he2 (by rw [← hke2] at hk; exact hk)
        · exact hek (hk.symm)

theorem HashGraph.keys_mk_cons (e : Node × List RelPair)
    (l : List (Node × List RelPair)) :
    (HashGraph.mk (e :: l)).triples.map tripleKey =
      e.2.map (fun r => ((e.1.key, r.1.key, r.2.key) : TKey)) ++
        (HashGraph.mk l).triples.map tripleKey := by
  rw [HashGraph.triples_cons, List.map_append, List.map_map]
  rfl

theorem mem_map_pairkey {c : NKey} {rels : List RelPair} {k : TKey} :
    k ∈ rels.map (fun r => ((c, r.1.key, r.2.key) : TKey)) ↔
      ∃ q ∈ rels.map relKey, k = (c, q.1, q.2) := by
  constructor
  · intro h
    rcases List.mem_map.mp h with ⟨r, hr, rfl⟩
    exact ⟨relKey r, List.mem_map.mpr ⟨r, hr, rfl⟩, rfl⟩
  · rintro ⟨q, hq, rfl⟩
    rcases List.mem_map.mp hq with ⟨r, hr, rfl⟩
    exact List.mem_map.mpr ⟨r, hr, rfl⟩

theorem HashGraph.insert_mk_cons (e : Node × List RelPair)
    (l : List (Node × List RelPair)) (s p o : Node) :
    (HashGraph.mk (e :: l)).insert s p o =
      if e.1.beq s then HashGraph.mk ((e.1, insertRel e.2 (p, o)) :: l)
      else HashGraph.mk (e :: ((HashGraph.mk l).insert s p o).nodes) := by
  show HashGraph.mk (insertEntry (e :: l) s (p, o)) = _
  simp only [insertEntry]
  split <;> rfl

/-- The equality-classes present after an `insert` are the old ones together
with the class of the inserted triple. -/
theorem HashGraph.insert_key_mem {H : Nat → String} {g : HashGraph}
    {s p o : Node} (hw : GraphWF H g) (hs : NodeWF H s) (hp : NodeWF H p)
    (ho : NodeWF H o) (k : TKey) :
    k ∈ (g.insert s p o).triples.map tripleKey ↔
      k ∈ g.triples.map tripleKey ∨ k = tripleKey (s, p, o) := by
  rcases g with ⟨l⟩
  induction l with
  | nil =>
      show k ∈ (HashGraph.mk [(s, [(p, o)])]).triples.map tripleKey ↔ _
      rw [HashGraph.keys_mk_cons]
      simp [HashGraph.triples, tripleKey]
  | cons e rest ih =>
      rcases nodesWF_cons.mp hw with ⟨⟨hewf, hrelnd⟩, hrest, hfresh⟩
      rw [HashGraph.insert_mk_cons]
      by_cases h : e.1.beq s = true
      · have hek : e.1.key = s.key := (Node.beq_iff_key hewf.1 hs).mp h
        simp only [h, if_true]
        rw [HashGraph.keys_mk_cons, HashGraph.keys_mk_cons, List.mem_append,
          List.mem_append, mem_map_pairkey, mem_map_pairkey]
        constructor
        · rintro (⟨q, hq, rfl⟩ | hin)
          · rcases (insertRel_key_mem hewf.2 ⟨hp, ho⟩ q).mp hq with h2 | rfl
            · exact Or.inl (Or.inl ⟨q, h2, rfl⟩)
            · right
              simp [tripleKey, relKey, hek]
          · exact Or.inl (Or.inr hin)
        · rintro ((⟨q, hq, rfl⟩ | hin) | rfl)
          · exact Or.inl ⟨q, (insertRel_key_mem hewf.2 ⟨hp, ho⟩ q).mpr
              (Or.inl hq), rfl⟩
          · exact Or.inr hin
          · left
            refine ⟨relKey (p, o), (insertRel_key_mem hewf.2 ⟨hp, ho⟩ _).mpr
              (Or.inr rfl), ?_⟩
            simp [tripleKey, relKey, hek]
      · simp only [h, Bool.false_eq_true, if_false]
        rw [HashGraph.keys_mk_cons, List.mem_append]
        have hrw : (HashGraph.mk ((HashGraph.mk rest).insert s p o).nodes) =
            (HashGraph.mk rest).insert s p o := rfl
        rw [hrw, ih hrest]
        rw [HashGraph.keys_mk_cons, List.mem_append]
        tauto

/-- `insert` grows the length by one exactly when the triple was absent. -/
theorem HashGraph.insert_len {H : Nat → String} {g : HashGraph} {s p o : Node}
    (hw : GraphWF H g) :
    (g.insert s p o).len =
      if g.contains s p o then g.len else g.len + 1 := by
  rcases g with ⟨l⟩
  induction l with
  | nil => rfl
  | cons e rest ih =>
      rcases nodesWF_cons.mp hw with ⟨⟨hewf, hrelnd⟩, hrest, hfresh⟩
      rw [HashGraph.insert_mk_cons, HashGraph.contains_cons]
      by_cases h : e.1.beq s = true
      · simp only [h, if_true]
        rw [HashGraph.len_mk_cons, HashGraph.len_mk_cons, insertRel_length]
        by_cases h2 : e.2.any (fun r => relBeq r (p, o)) = true
        · simp [h2]
        · simp only [h2, Bool.false_eq_true, if_false]
          omega
      · simp only [h, Bool.false_eq_true, if_false]
        rw [HashGraph.len_mk_cons, HashGraph.len_mk_cons]
        have hrw : (HashGraph.mk ((HashGraph.mk rest).insert s p o).nodes) =
            (HashGraph.mk rest).insert s p o := rfl
        rw [hrw, ih hrest]
        by_cases h2 : (HashGraph.mk rest).contains s p o = true
        · simp [h2]
        · simp only [h2, Bool.false_eq_true, if_false]
          omega

theorem HashGraph.remove_mk_cons (e : Node × List RelPair)
    (l : List (Node × List RelPair)) (s p o : Node) :
    (HashGraph.mk (e :: l)).remove s p o =
      if e.1.beq s then
        HashGraph.mk
          ((e.1, e.2.filter (fun r => !(r.1.beq p) || !(r.2.beq o))) :: l)
      else HashGraph.mk (e :: ((HashGraph.mk l).remove s p o).nodes) := by
  show HashGraph.mk (removeEntry (e :: l) s p o) = _
  simp only [removeEntry]
  split <;> rfl

theorem removeEntry_subject {s p o : Node} :
    ∀ {l : List (Node × List RelPair)}, ∀ e' ∈ removeEntry l s p o,
      e'.1 ∈ l.map Prod.fst := by
  intro l
  induction l with
  | nil =>
      intro e' he'
      simp [removeEntry] at he'
  | cons e rest ih =>
      intro e' he'
      unfold removeEntry at he'
      by_cases h : e.1.beq s = true
      · simp only [h, if_true] at he'
        rcases List.mem_cons.mp he' with rfl | he2
        · simp
        · exact List.mem_cons_of_mem _ (List.mem_map.mpr ⟨e', he2, rfl⟩)
      · simp only [h, Bool.false_eq_true, if_false] at he'
        rcases List.mem_cons.mp he' with rfl | he2
        · simp
        · exact List.mem_cons_of_mem _ (ih e' he2)

/-- `remove` preserves the hash-map well-formedness invariant (for any query
nodes: it only filters stored data). -/
theorem HashGraph.remove_wf {H : Nat → String} {g : HashGraph} {s p o : Node}
    (hw : GraphWF H g) : GraphWF H (g.remove s p o) := by
  rcases g with ⟨l⟩
  induction l with
  | nil => exact hw
  | cons e rest ih =>
      rcases nodesWF_cons.mp hw with ⟨⟨hewf, hrelnd⟩, hrest, hfresh⟩
      rw [HashGraph.remove_mk_cons]
      by_cases h : e.1.beq s = true
      · simp only [h, if_true]
        refine nodesWF_cons.mpr ⟨⟨⟨hewf.1, ?_⟩, ?_⟩, hrest, hfresh⟩
        · intro r hr
          exact hewf.2 r (List.mem_of_mem_filter hr)
        · exact List.Nodup.sublist
            (List.Sublist.map relKey (List.filter_sublist e.2)) hrelnd
      · simp only [h, Bool.false_eq_true, if_false]
        refine nodesWF_cons.mpr ⟨⟨hewf, hrelnd⟩, ih hrest, ?_⟩
        intro e' he' hk
        rcases List.mem_map.mp (removeEntry_subject e' he') with ⟨e2, he2, hke2⟩
        exact hfresh e2 he2 (by rw [← hke2] at hk; exact hk)

/-- The equality-classes present after a `remove` are the old ones except the
class of the removed triple. -/
theorem HashGraph.remove_key_mem {H : Nat → String} {g : HashGraph}
    {s p o : Node} (hw : GraphWF H g) (hs : NodeWF H s) (hp : NodeWF H p)
    (ho : NodeWF H o) (k : TKey) :
    k ∈ (g.remove s p o).triples.map tripleKey ↔
      k ∈ g.triples.map tripleKey ∧ k ≠ tripleKey (s, p, o) := by
  rcases g with ⟨l⟩
  induction l with
  | nil => simp [HashGraph.remove, removeEntry, HashGraph.triples]
  | cons e rest ih =>
      rcases nodesWF_cons.mp hw with ⟨⟨hewf, hrelnd⟩, hrest, hfresh⟩
      rw [HashGraph.remove_mk_cons]
      by_cases h : e.1.beq s = true
      · have hek : e.1.key = s.key := (Node.beq_iff_key hewf.1 hs).mp h
        simp only [h, if_true]
        rw [HashGraph.keys_mk_cons, HashGraph.keys_mk_cons, List.mem_append,
          List.mem_append]
        have hrestkey : ∀ k' : TKey,
            k' ∈ (HashGraph.mk rest).triples.map tripleKey →
              k' ≠ tripleKey (s, p, o) := by
          intro k' hk' hkeq
          rcases List.mem_map.mp hk' with ⟨t, htm, hkt⟩
          rcases HashGraph.mem_triples.mp htm with ⟨e', he', r, hr, rfl⟩
          apply hfresh e' he'
          have h1 : e'.1.key = s.key := by
            have := congrArg (fun q : TKey => q.1) (hkt.trans hkeq)
            simpa [tripleKey] using this
          exact h1.trans hek.symm
        constructor
        · rintro (hin | hin)
          · rcases List.mem_map.mp hin with ⟨r, hrf, rfl⟩
            rcases List.mem_filter.mp hrf with ⟨hr, hkeep⟩
            have hrne : relKey r ≠ relKey (p, o) := by
              intro hkr
              have := (relBeq_iff_key (hewf.2 r hr) ⟨hp, ho⟩).mpr hkr
              unfold relBeq at this
              rw [Bool.and_eq_true] at this
              simp [this.1, this.2] at hkeep
            refine ⟨Or.inl (List.mem_map.mpr ⟨r, hr, rfl⟩), ?_⟩
            intro hkeq
            apply hrne
            have h2 := congrArg (fun q : TKey => q.2.1) hkeq
            have h3 := congrArg (fun q : TKey => q.2.2) hkeq
            simp only [tripleKey] at h2 h3
            simp [relKey, h2, h3]
          · exact ⟨Or.inr hin, hrestkey k hin⟩
        · rintro ⟨hin | hin, hne⟩
          · rcases List.mem_map.mp hin with ⟨r, hr, rfl⟩
            left
            refine List.mem_map.mpr ⟨r, List.mem_filter.mpr ⟨hr, ?_⟩, rfl⟩
            cases hb1 : r.1.beq p with
            | false => simp
            | true =>
                cases hb2 : r.2.beq o with
                | false => simp [hb2]
                | true =>
                    exfalso
                    have hrb : relBeq r (p, o) = true := by
                      simp [relBeq, hb1, hb2]
                    have hkr := (relBeq_iff_key (hewf.2 r hr) ⟨hp, ho⟩).mp hrb
                    apply hne
                    have h2 : r.1.key = p.key := congrArg Prod.fst hkr
                    have h3 : r.2.key = o.key := congrArg Prod.snd hkr
                    simp [tripleKey, hek, h2, h3]
          · exact Or.inr hin
      · have hek : e.1.key ≠ s.key := by
          intro hkk
          exact h ((Node.beq_iff_key hewf.1 hs).mpr hkk)
        simp only [h, Bool.false_eq_true, if_false]
        rw [HashGraph.keys_mk_cons, List.mem_append]
        have hrw : HashGraph.mk ((HashGraph.mk rest).remove s p o).nodes =
            (HashGraph.mk rest).remove s p o := rfl
        rw [hrw, ih hrest, HashGraph.keys_mk_cons, List.mem_append]
        have hepart : ∀ k' : TKey,
            k' ∈ e.2.map (fun r => ((e.1.key, r.1.key, r.2.key) : TKey)) →
              k' ≠ tripleKey (s, p, o) := by
          intro k' hk' hkeq
          rcases List.mem_map.mp hk' with ⟨r, hr, rfl⟩
          apply hek
          have := congrArg (fun q : TKey => q.1) hkeq
          simpa [tripleKey] using this
        constructor
        · rintro (hin | ⟨hin, hne⟩)
          · exact ⟨Or.inl hin, hepart k hin⟩
          · exact ⟨Or.inr hin, hne⟩
        · rintro ⟨hin | hin, hne⟩
          · exact Or.inl hin
          · exact Or.inr ⟨hin, hne⟩

/-- `retain` keeps exactly the triples satisfying the predicate (pure
structural fact about the iterator). -/
theorem HashGraph.retain_triples (g : HashGraph) (f : Node → Node → Node → Bool) :
    (g.retain f).triples = g.triples.filter (fun t => f t.1 t.2.1 t.2.2) := by
  rcases g with ⟨l⟩
  induction l with
  | nil => rfl
  | cons e rest ih =>
      have hstep : (HashGraph.mk (e :: rest)).retain f =
          HashGraph.mk ((e.1, e.2.filter (fun r => f e.1 r.1 r.2)) ::
            ((HashGraph.mk rest).retain f).nodes) := by
        simp [HashGraph.retain]
      rw [hstep, HashGraph.triples_cons, HashGraph.triples_cons,
        List.filter_append]
      have hrw : HashGraph.mk ((HashGraph.mk rest).retain f).nodes =
          (HashGraph.mk rest).retain f := rfl
      rw [hrw, ih]
      congr 1
      rw [List.filter_map]
      rfl

/-- `retain` preserves the hash-map well-formedness invariant. -/
theorem HashGraph.retain_wf {H : Nat → String} {g : HashGraph}
    {f : Node → Node → Node → Bool} (hw : GraphWF H g) :
    GraphWF H (g.retain f) := by
  rcases g with ⟨l⟩
  induction l with
  | nil => exact hw
  | cons e rest ih =>
      rcases nodesWF_cons.mp hw with ⟨⟨hewf, hrelnd⟩, hrest, hfresh⟩
      have hstep : (HashGraph.mk (e :: rest)).retain f =
          HashGraph.mk ((e.1, e.2.filter (fun r => f e.1 r.1 r.2)) ::
            ((HashGraph.mk rest).retain f).nodes) := by
        simp [HashGraph.retain]
      rw [hstep]
      refine nodesWF_cons.mpr ⟨⟨⟨hewf.1, ?_⟩, ?_⟩, ih hrest, ?_⟩
      · intro r hr
        exact hewf.2 r (List.mem_of_mem_filter hr)
      · exact List.Nodup.sublist
          (List.Sublist.map relKey (List.filter_sublist e.2)) hrelnd
      · intro e' he' hk
        have he'2 : e' ∈ ((HashGraph.mk rest).retain f).nodes := he'
        have : e'.1 ∈ rest.map Prod.fst := by
          unfold HashGraph.retain at he'2
          rcases List.mem_map.mp he'2 with ⟨e2, he2, rfl⟩
          exact List.mem_map.mpr ⟨e2, he2, rfl⟩
        rcases List.mem_map.mp this with ⟨e2, he2, hke2⟩
        exact hfresh e2 he2 (by rw [← hke2] at hk; exact hk)

/-- `extend` preserves the hash-map well-formedness invariant. -/
theorem HashGraph.extend_wf {H : Nat → String} {ts : List Triple}
    (hts : ∀ t ∈ ts, TripleWF H t) :
    ∀ {g : HashGraph}, GraphWF H g → GraphWF H (g.extend ts) := by
  induction ts with
  | nil => exact fun hw => hw
  | cons t rest ih =>
      intro g hw
      have hh := hts t (by simp)
      exact ih (fun u hu => hts u (List.mem_cons_of_mem _ hu))
        (HashGraph.insert_wf hw hh.1 hh.2.1 hh.2.2)

theorem HashGraph.extend_key_mem {H : Nat → String} {ts : List Triple}
    (hts : ∀ t ∈ ts, TripleWF H t) :
    ∀ {g : HashGraph}, GraphWF H g → ∀ k : TKey,
      (k ∈ (g.extend ts).triples.map tripleKey ↔
        k ∈ g.triples.map tripleKey ∨ k ∈ ts.map tripleKey) := by
  induction ts with
  | nil =>
      intro g _ k
      simp [HashGraph.extend]
  | cons t rest ih =>
      intro g hw k
      have hh := hts t (by simp)
      have hstep : g.extend (t :: rest) = (g.insert t.1 t.2.1 t.2.2).extend rest := rfl
      rw [hstep, ih (fun u hu => hts u (List.mem_cons_of_mem _ hu))
        (HashGraph.insert_wf hw hh.1 hh.2.1 hh.2.2) k]
      rw [HashGraph.insert_key_mem hw hh.1 hh.2.1 hh.2.2 k]
      simp only [List.map_cons, List.mem_cons]
      tauto

theorem HashGraph.remove_all_wf {H : Nat → String} {ts : List Triple} :
    ∀ {g : HashGraph}, GraphWF H g → GraphWF H (g.remove_all ts) := by
  induction ts with
  | nil => exact fun hw => hw
  | cons t rest ih =>
      intro g hw
      exact ih (HashGraph.remove_wf hw)

theorem HashGraph.remove_all_key_mem {H : Nat → String} {ts : List Triple}
    (hts : ∀ t ∈ ts, TripleWF H t) :
    ∀ {g : HashGraph}, GraphWF H g → ∀ k : TKey,
      (k ∈ (g.remove_all ts).triples.map tripleKey ↔
        k ∈ g.triples.map tripleKey ∧ k ∉ ts.map tripleKey) := by
  induction ts with
  | nil =>
      intro g _ k
      simp [HashGraph.remove_all]
  | cons t rest ih =>
      intro g hw k
      have hh := hts t (by simp)
      have hstep : g.remove_all (t :: rest) =
          (g.remove t.1 t.2.1 t.2.2).remove_all rest := rfl
      rw [hstep, ih (fun u hu => hts u (List.mem_cons_of_mem _ hu))
        (HashGraph.remove_wf hw) k]
      rw [HashGraph.remove_key_mem hw hh.1 hh.2.1 hh.2.2 k]
      simp only [List.map_cons, List.mem_cons]
      constructor
      · rintro ⟨⟨hin, hne⟩, hnotin⟩
        refine ⟨hin, ?_⟩
        rintro (h1 | h1)
        · exact hne h1
        · exact hnotin h1
      · rintro ⟨hin, hnotin⟩
        exact ⟨⟨hin, fun h1 => hnotin (Or.inl h1)⟩,
          fun h1 => hnotin (Or.inr h1)⟩

/-- Extending with key-distinct, fresh triples adds exactly their number. -/
theorem HashGraph.extend_len {H : Nat → String} {ts : List Triple}
    (hts : ∀ t ∈ ts, TripleWF H t) (hnd : (ts.map tripleKey).Nodup) :
    ∀ {g : HashGraph}, GraphWF H g →
      (∀ t ∈ ts, tripleKey t ∉ g.triples.map tripleKey) →
      (g.extend ts).len = g.len + ts.length := by
  induction ts with
  | nil =>
      intro g _ _
      rfl
  | cons t rest ih =>
      intro g hw hdisj
      have hh := hts t (by simp)
      have hstep : g.extend (t :: rest) = (g.insert t.1 t.2.1 t.2.2).extend rest := rfl
      have hcont : g.contains t.1 t.2.1 t.2.2 = false := by
        rw [← Bool.not_eq_true]
        intro hc
        exact hdisj t (by simp)
          ((HashGraph.contains_iff_key_mem hw hh.1 hh.2.1 hh.2.2).mp hc)
      have hlen := HashGraph.insert_len (s := t.1) (p := t.2.1) (o := t.2.2) hw
      rw [hcont] at hlen
      simp only [Bool.false_eq_true, if_false] at hlen
      rw [hstep, ih (fun u hu => hts u (List.mem_cons_of_mem _ hu))
        (List.Nodup.of_cons hnd) (HashGraph.insert_wf hw hh.1 hh.2.1 hh.2.2) ?_,
        hlen]
      · simp only [List.length_cons]
        omega
      · intro u hu hmem
        rw [HashGraph.insert_key_mem hw hh.1 hh.2.1 hh.2.2] at hmem
        rcases hmem with h1 | h1
        · exact hdisj u (List.mem_cons_of_mem _ hu) h1
        · have hnd2 := hnd
          rw [List.map_cons, List.nodup_cons] at hnd2
          exact hnd2.1 (h1 ▸ List.mem_map.mpr ⟨u, hu, rfl⟩)

theorem HashGraph.new_wf (H : Nat → String) : GraphWF H HashGraph.new :=
  nodesWF_nil H

theorem HashGraph.fromTriples_wf {H : Nat → String} {ts : List Triple}
    (hts : ∀ t ∈ ts, TripleWF H t) : GraphWF H (HashGraph.fromTriples ts) :=
  HashGraph.extend_wf hts (HashGraph.new_wf H)

theorem HashGraph.fromTriples_key_mem {H : Nat → String} {ts : List Triple}
    (hts : ∀ t ∈ ts, TripleWF H t) (k : TKey) :
    k ∈ (HashGraph.fromTriples ts).triples.map tripleKey ↔
      k ∈ ts.map tripleKey := by
  unfold HashGraph.fromTriples
  rw [HashGraph.extend_key_mem hts (HashGraph.new_wf H) k]
  simp [HashGraph.new, HashGraph.triples]

theorem HashGraph.fromTriples_len {H : Nat → String} {ts : List Triple}
    (hts : ∀ t ∈ ts, TripleWF H t) (hnd : (ts.map tripleKey).Nodup) :
    (HashGraph.fromTriples ts).len = ts.length := by
  unfold HashGraph.fromTriples
  rw [HashGraph.extend_len hts hnd (HashGraph.new_wf H) ?_]
  · show HashGraph.new.len + ts.length = ts.length
    simp [HashGraph.new, HashGraph.len]
  · intro t _ hmem
    simp [HashGraph.new, HashGraph.triples] at hmem

theorem GOp.apply_wf {H : Nat → String} {g : HashGraph} {op : GOp}
    (hw : GraphWF H g) (hop : GOpWF H op) : GraphWF H (GOp.apply g op) := by
  cases op with
  | ins s p o => exact HashGraph.insert_wf hw hop.1 hop.2.1 hop.2.2
  | rem s p o => exact HashGraph.remove_wf hw
  | ret f => exact HashGraph.retain_wf hw
  | ext ts => exact HashGraph.extend_wf hop hw

theorem runGOps_wf {H : Nat → String} {ops : List GOp}
    (hops : ∀ op ∈ ops, GOpWF H op) : GraphWF H (runGOps ops) := by
  unfold runGOps
  have hgen : ∀ (l : List GOp), (∀ op ∈ l, GOpWF H op) →
      ∀ g : HashGraph, GraphWF H g → GraphWF H (l.foldl GOp.apply g) := by
    intro l
    induction l with
    | nil => exact fun _ g hw => hw
    | cons op rest ih =>
        intro hl g hw
        exact ih (fun u hu => hl u (List.mem_cons_of_mem _ hu)) _
          (GOp.apply_wf hw (hl op (by simp)))
  exact hgen ops hops HashGraph.new (HashGraph.new_wf H)

/-- On a well-formed graph the optimized `contains` agrees with the
iteration-based containment definition. -/
theorem HashGraph.contains_eq_iterContains {H : Nat → String} {g : HashGraph}
    (hw : GraphWF H g) {s p o : Node}
    (hs : NodeWF H s) (hp : NodeWF H p) (ho : NodeWF H o) :
    g.contains s p o = g.iterContains s p o := by
  apply Bool.eq_iff_iff.mpr
  rw [HashGraph.contains_iff_key_mem hw hs hp ho,
    HashGraph.iterContains_iff_key_mem hw hs hp ho]

theorem txInv_new {H : Nat → String} {st : IntTransactionGraph}
    (hw : GraphWF H st.graph) : TxInv H (MutTransaction.new st) := by
  refine ⟨hw, HashGraph.new_wf H, HashGraph.new_wf H, ?_, ?_⟩ <;>
    · intro k hk
      simp [MutTransaction.new, HashGraph.new, HashGraph.triples] at hk

theorem MutTransaction.insert_inv {H : Nat → String} {t : MutTransaction}
    {s p o : Node} (hinv : TxInv H t) (hs : NodeWF H s) (hp : NodeWF H p)
    (ho : NodeWF H o) : TxInv H (t.insert s p o) := by
  rcases hinv with ⟨hg, ha, hr, hsub, hdisj⟩
  unfold MutTransaction.insert
  by_cases h1 : t.removed_triples.contains s p o = true
  · simp only [h1, if_true]
    refine ⟨hg, ha, HashGraph.remove_wf hr, ?_, hdisj⟩
    intro k hk
    rw [HashGraph.remove_key_mem hr hs hp ho k] at hk
    exact hsub k hk.1
  · simp only [h1, Bool.false_eq_true, if_false]
    by_cases h2 : t.guard.graph.contains s p o = true
    · simp only [h2, Bool.not_true, Bool.false_eq_true, if_false]
      exact ⟨hg, ha, hr, hsub, hdisj⟩
    · simp only [Bool.not_eq_true] at h2
      simp only [h2, Bool.not_false, if_true]
      refine ⟨hg, HashGraph.insert_wf ha hs hp ho, hr, hsub, ?_⟩
      intro k hk
      rw [HashGraph.insert_key_mem ha hs hp ho k] at hk
      rcases hk with hk | rfl
      · exact hdisj k hk
      · intro hmem
        have : t.guard.graph.contains s p o = true :=
          (HashGraph.contains_iff_key_mem hg hs hp ho).mpr hmem
        rw [this] at h2
        exact Bool.noConfusion h2

theorem MutTransaction.remove_inv {H : Nat → String} {t : MutTransaction}
    {s p o : Node} (hinv : TxInv H t) (hs : NodeWF H s) (hp : NodeWF H p)
    (ho : NodeWF H o) : TxInv H (t.remove s p o) := by
  rcases hinv with ⟨hg, ha, hr, hsub, hdisj⟩
  unfold MutTransaction.remove
  by_cases h1 : t.added_triples.contains s p o = true
  · simp only [h1, if_true]
    refine ⟨hg, HashGraph.remove_wf ha, hr, hsub, ?_⟩
    intro k hk
    rw [HashGraph.remove_key_mem ha hs hp ho k] at hk
    exact hdisj k hk.1
  · simp only [h1, Bool.false_eq_true, if_false]
    by_cases h2 : t.guard.graph.contains s p o = true
    · simp only [h2, if_true]
      refine ⟨hg, ha, HashGraph.insert_wf hr hs hp ho, ?_, hdisj⟩
      intro k hk
      rw [HashGraph.insert_key_mem hr hs hp ho k] at hk
      rcases hk with hk | rfl
      · exact hsub k hk
      · exact (HashGraph.contains_iff_key_mem hg hs hp ho).mp h2
    · simp only [h2, Bool.false_eq_true, if_false]
      exact ⟨hg, ha, hr, hsub, hdisj⟩

theorem MutTransaction.remove_all_inv {H : Nat → String} {ts : List Triple}
    (hts : ∀ u ∈ ts, TripleWF H u) :
    ∀ {t : MutTransaction}, TxInv H t → TxInv H (t.remove_all ts) := by
  induction ts with
  | nil => exact fun hinv => hinv
  | cons u rest ih =>
      intro t hinv
      have hu := hts u (by simp)
      exact ih (fun v hv => hts v (List.mem_cons_of_mem _ hv))
        (MutTransaction.remove_inv hinv hu.1 hu.2.1 hu.2.2)

theorem MutTransaction.iter_wf {H : Nat → String} {t : MutTransaction}
    (hinv : TxInv H t) : ∀ u ∈ t.iter, TripleWF H u := by
  rcases hinv with ⟨hg, ha, hr, -, -⟩
  intro u hu
  unfold MutTransaction.iter at hu
  rcases List.mem_append.mp hu with hu | hu
  · exact tripleWF_of_mem hg (List.mem_of_mem_filter hu)
  · exact tripleWF_of_mem ha hu

theorem MutTransaction.retain_inv {H : Nat → String} {t : MutTransaction}
    {f : Node → Node → Node → Bool} (hinv : TxInv H t) :
    TxInv H (t.retain f) := by
  unfold MutTransaction.retain
  apply MutTransaction.remove_all_inv ?_ hinv
  intro u hu
  apply tripleWF_of_mem (HashGraph.fromTriples_wf ?_) hu
  intro v hv
  exact MutTransaction.iter_wf hinv v (List.mem_of_mem_filter hv)

theorem MutTransaction.clear_inv {H : Nat → String} {t : MutTransaction}
    (hinv : TxInv H t) : TxInv H t.clear := by
  rcases hinv with ⟨hg, ha, hr, hsub, hdisj⟩
  have hgts : ∀ u ∈ t.guard.graph.triples, TripleWF H u :=
    fun u hu => tripleWF_of_mem hg hu
  unfold MutTransaction.clear
  refine ⟨hg, HashGraph.new_wf H, HashGraph.extend_wf hgts hr, ?_, ?_⟩
  · intro k hk
    rw [HashGraph.extend_key_mem hgts hr k] at hk
    rcases hk with hk | hk
    · exact hsub k hk
    · exact hk
  · intro k hk
    simp [HashGraph.clear, HashGraph.triples] at hk

theorem TOp.apply_inv {H : Nat → String} {t : MutTransaction} {op : TOp}
    (hinv : TxInv H t) (hop : TOpWF H op) : TxInv H (TOp.apply t op) := by
  cases op with
  | ins s p o => exact MutTransaction.insert_inv hinv hop.1 hop.2.1 hop.2.2
  | rem s p o => exact MutTransaction.remove_inv hinv hop.1 hop.2.1 hop.2.2
  | ret f => exact MutTransaction.retain_inv hinv
  | clr => exact MutTransaction.clear_inv hinv

theorem runTOps_inv {H : Nat → String} {st : IntTransactionGraph}
    {ops : List TOp} (hw : GraphWF H st.graph)
    (hops : ∀ op ∈ ops, TOpWF H op) : TxInv H (runTOps st ops) := by
  unfold runTOps
  have hgen : ∀ (l : List TOp), (∀ op ∈ l, TOpWF H op) →
      ∀ t : MutTransaction, TxInv H t → TxInv H (l.foldl TOp.apply t) := by
    intro l
    induction l with
    | nil => exact fun _ t hinv => hinv
    | cons op rest ih =>
        intro hl t hinv
        exact ih (fun u hu => hl u (List.mem_cons_of_mem _ hu)) _
          (TOp.apply_inv hinv (hl op (by simp)))
  exact hgen ops hops _ (txInv_new hw)

theorem MutTransaction.insert_guard (t : MutTransaction) (s p o : Node) :
    (t.insert s p o).guard = t.guard := by
  unfold MutTransaction.insert
  split
  · rfl
  · split <;> rfl

theorem MutTransaction.remove_guard (t : MutTransaction) (s p o : Node) :
    (t.remove s p o).guard = t.guard := by
  unfold MutTransaction.remove
  split
  · rfl
  · split <;> rfl

theorem MutTransaction.remove_all_guard (ts : List Triple) :
    ∀ t : MutTransaction, (t.remove_all ts).guard = t.guard := by
  induction ts with
  | nil => exact fun t => rfl
  | cons u rest ih =>
      intro t
      have hstep : t.remove_all (u :: rest) =
          (t.remove u.1 u.2.1 u.2.2).remove_all rest := rfl
      rw [hstep, ih, MutTransaction.remove_guard]

/-- No mutation call on an open transaction touches the guarded store or the
revision counter. -/
theorem TOp.apply_guard (t : MutTransaction) (op : TOp) :
    (TOp.apply t op).guard = t.guard := by
  cases op with
  | ins s p o => exact MutTransaction.insert_guard t s p o
  | rem s p o => exact MutTransaction.remove_guard t s p o
  | ret f => exact MutTransaction.remove_all_guard _ t
  | clr => rfl

theorem runTOps_guard (st : IntTransactionGraph) (ops : List TOp) :
    (runTOps st ops).guard = st := by
  unfold runTOps
  have hgen : ∀ (l : List TOp) (t : MutTransaction),
      (l.foldl TOp.apply t).guard = t.guard := by
    intro l
    induction l with
    | nil => exact fun t => rfl
    | cons op rest ih =>
        intro t
        rw [List.foldl_cons, ih, TOp.apply_guard]
  exact hgen ops _

/-- Under the semantic invariant, the defensive check
`MutTransaction::is_valid` evaluates to `true`. -/
theorem MutTransaction.is_valid_of_inv {H : Nat → String} {t : MutTransaction}
    (hinv : TxInv H t) : t.is_valid = true := by
  rcases hinv with ⟨hg, ha, hr, hsub, hdisj⟩
  unfold MutTransaction.is_valid setIsSubset setIsDisjoint setIntersection
  rw [Bool.and_eq_true]
  constructor
  · rw [List.all_eq_true]
    intro u hu
    have huwf := tripleWF_of_mem hr hu
    apply (HashGraph.contains_iff_key_mem hg huwf.1 huwf.2.1 huwf.2.2).mpr
    exact hsub _ (List.mem_map.mpr ⟨u, hu, rfl⟩)
  · rw [List.isEmpty_iff, List.filter_eq_nil_iff]
    intro u hu hc
    have huwf := tripleWF_of_mem hg hu
    have hk := (HashGraph.contains_iff_key_mem ha huwf.1 huwf.2.1 huwf.2.2).mp hc
    exact hdisj _ hk (List.mem_map.mpr ⟨u, hu, rfl⟩)

/-- Under the invariant the length formula of `MutTransaction::len` counts
exactly the triples its iterator yields. -/
theorem MutTransaction.len_eq_iter_length {H : Nat → String}
    {t : MutTransaction} (hinv : TxInv H t) : t.len = t.iter.length := by
  rcases hinv with ⟨hg, ha, hr, hsub, hdisj⟩
  have hperm : ((t.guard.graph.triples.filter
      (fun u => t.removed_triples.contains u.1 u.2.1 u.2.2)).map tripleKey).Perm
      (t.removed_triples.triples.map tripleKey) := by
    apply (List.perm_ext_iff_of_nodup ?_ ?_).mpr
    · intro k
      constructor
      · intro hk
        rcases List.mem_map.mp hk with ⟨u, hu, rfl⟩
        rcases List.mem_filter.mp hu with ⟨hum, huc⟩
        have huwf := tripleWF_of_mem hg hum
        exact (HashGraph.contains_iff_key_mem hr huwf.1 huwf.2.1 huwf.2.2).mp huc
      · intro hk
        have hkg := hsub k hk
        rcases List.mem_map.mp hkg with ⟨u, hu, rfl⟩
        have huwf := tripleWF_of_mem hg hu
        refine List.mem_map.mpr ⟨u, List.mem_filter.mpr ⟨hu, ?_⟩, rfl⟩
        exact (HashGraph.contains_iff_key_mem hr huwf.1 huwf.2.1 huwf.2.2).mpr hk
    · exact List.Nodup.sublist (List.Sublist.map _ (List.filter_sublist _))
        (HashGraph.keys_nodup hg)
    · exact HashGraph.keys_nodup hr
  have hcount : (t.guard.graph.triples.filter
      (fun u => t.removed_triples.contains u.1 u.2.1 u.2.2)).length =
      t.removed_triples.len := by
    have hlen := hperm.length_eq
    rw [List.length_map, List.length_map] at hlen
    rw [hlen, HashGraph.len_eq_triples_length]
  have hsplit := List.length_eq_length_filter_add
    (fun u : Triple => t.removed_triples.contains u.1 u.2.1 u.2.2)
    (l := t.guard.graph.triples)
  have hle : t.removed_triples.len ≤ t.guard.graph.len := by
    rw [← hcount, HashGraph.len_eq_triples_length]
    exact List.length_filter_le _ _
  unfold MutTransaction.len MutTransaction.iter setDifference
  rw [List.length_append]
  rw [HashGraph.len_eq_triples_length t.guard.graph,
    HashGraph.len_eq_triples_length t.added_triples] at *
  omega

/-- `commit` advances the revision by exactly one. -/
theorem MutTransaction.commit_revision (t : MutTransaction) :
    (t.commit).revision = t.guard.revision + 1 := rfl

/-- After `commit`, the new store contains exactly the staged diff: the old
triples minus the staged removals, plus the staged additions. -/
theorem MutTransaction.commit_contains {H : Nat → String} {t : MutTransaction}
    (hinv : TxInv H t) {s p o : Node} (hs : NodeWF H s) (hp : NodeWF H p)
    (ho : NodeWF H o) :
    ((t.commit).graph.contains s p o = true ↔
      ((t.guard.graph.contains s p o = true ∧
          t.removed_triples.contains s p o = false) ∨
        t.added_triples.contains s p o = true)) := by
  rcases hinv with ⟨hg, ha, hr, hsub, hdisj⟩
  have hrts : ∀ u ∈ t.removed_triples.triples, TripleWF H u :=
    fun u hu => tripleWF_of_mem hr hu
  have hats : ∀ u ∈ t.added_triples.triples, TripleWF H u :=
    fun u hu => tripleWF_of_mem ha hu
  have hw1 : GraphWF H (t.guard.graph.remove_all t.removed_triples.triples) :=
    HashGraph.remove_all_wf hg
  have hw2 : GraphWF H (t.commit).graph := HashGraph.extend_wf hats hw1
  rw [show (t.commit).graph =
    (t.guard.graph.remove_all t.removed_triples.triples).extend
      t.added_triples.triples from rfl] at hw2 ⊢
  rw [HashGraph.contains_iff_key_mem hw2 hs hp ho,
    HashGraph.extend_key_mem hats hw1 _,
    HashGraph.remove_all_key_mem hrts hg _]
  rw [← HashGraph.contains_iff_key_mem hg hs hp ho,
    ← HashGraph.contains_iff_key_mem ha hs hp ho]
  have hrem : t.removed_triples.contains s p o = false ↔
      tripleKey (s, p, o) ∉ t.removed_triples.triples.map tripleKey := by
    rw [← Bool.not_eq_true, HashGraph.contains_iff_key_mem hr hs hp ho]
  rw [hrem]

/-! ## Set-algebra support (claim C8) -/

theorem setUnion_triples_wf {H : Nat → String} {A B : HashGraph}
    (hwA : GraphWF H A) (hwB : GraphWF H B) :
    ∀ t ∈ setUnion A B, TripleWF H t := by
  intro t ht
  rcases List.mem_append.mp ht with h | h
  · exact tripleWF_of_mem hwA h
  · exact tripleWF_of_mem hwB (List.mem_of_mem_filter h)

theorem setDifference_key_disjoint {H : Nat → String} {A B : HashGraph}
    (hwA : GraphWF H A) (hwB : GraphWF H B) :
    ∀ t ∈ setDifference B A, tripleKey t ∉ A.triples.map tripleKey := by
  intro t ht hk
  rcases List.mem_filter.mp ht with ⟨htm, hcond⟩
  have hwf := tripleWF_of_mem hwB htm
  have hc : A.contains t.1 t.2.1 t.2.2 = true :=
    (HashGraph.contains_iff_key_mem hwA hwf.1 hwf.2.1 hwf.2.2).mpr hk
  simp [hc] at hcond

theorem setUnion_keys_nodup {H : Nat → String} {A B : HashGraph}
    (hwA : GraphWF H A) (hwB : GraphWF H B) :
    ((setUnion A B).map tripleKey).Nodup := by
  unfold setUnion
  rw [List.map_append, List.nodup_append]
  refine ⟨HashGraph.keys_nodup hwA,
    List.Nodup.sublist (List.Sublist.map _ (List.filter_sublist _))
      (HashGraph.keys_nodup hwB), ?_⟩
  intro k hk1 hk2
  rcases List.mem_map.mp hk2 with ⟨t, ht, rfl⟩
  exact setDifference_key_disjoint hwA hwB t ht hk1

/-! ## Claim theorems -/

/-- C1: for every mutable transaction, after every sequence of `insert`,
`remove`, `retain` or `clear` calls made while it is open, the bookkeeping
invariant checked by `MutTransaction::is_valid` holds: the added-triples
buffer is disjoint from the underlying store and the removed-triples buffer
is a subset of the underlying store. -/
theorem claim_C1_diff_invariant (H : Nat → String) (st : IntTransactionGraph)
    (ops : List TOp) (hw : GraphWF H st.graph)
    (hops : ∀ op ∈ ops, TOpWF H op) :
    (runTOps st ops).is_valid = true :=
  MutTransaction.is_valid_of_inv (runTOps_inv hw hops)

theorem claim_C1_diff_invariant_witness :
    GraphWF tbHeap tbStore.graph ∧
      (runTOps tbStore [TOp.ins tbA tbP tbA, TOp.rem tbA tbP tbB,
        TOp.clr]).is_valid = true :=
  ⟨by decide, claim_C1_diff_invariant tbHeap tbStore
    [TOp.ins tbA tbP tbA, TOp.rem tbA tbP tbB, TOp.clr]
    (by decide) (by decide)⟩

/-- C2: mutation calls on an open `MutTransaction` never change the guarded
store or the revision counter (so discarding the transaction leaves both
unchanged), and `commit` increments the revision by exactly one and makes
exactly the staged diff visible: the committed store contains a triple iff
it was in the old store and not staged as removed, or it was staged as
added. -/
theorem claim_C2_isolation_commit (H : Nat → String)
    (st : IntTransactionGraph) (ops : List TOp) (hw : GraphWF H st.graph)
    (hops : ∀ op ∈ ops, TOpWF H op) :
    (runTOps st ops).guard = st ∧
    ((runTOps st ops).commit).revision = st.revision + 1 ∧
    (∀ s p o : Node, NodeWF H s → NodeWF H p → NodeWF H o →
      (((runTOps st ops).commit).graph.contains s p o = true ↔
        ((st.graph.contains s p o = true ∧
            (runTOps st ops).removed_triples.contains s p o = false) ∨
          (runTOps st ops).added_triples.contains s p o = true))) := by
  have hframe := runTOps_guard st ops
  have hinv := runTOps_inv hw hops
  refine ⟨hframe, ?_, ?_⟩
  · rw [MutTransaction.commit_revision, hframe]
  · intro s p o hs hp ho
    have hchar := MutTransaction.commit_contains hinv hs hp ho
    rw [hframe] at hchar
    exact hchar

theorem claim_C2_isolation_commit_witness :
    GraphWF tbHeap tbStore.graph ∧ NodeWF tbHeap tbA ∧ NodeWF tbHeap tbP ∧
      NodeWF tbHeap tbB ∧
      ((((runTOps tbStore [TOp.rem tbA tbP tbB]).commit).graph.contains
          tbA tbP tbB = true) ↔
        ((tbStore.graph.contains tbA tbP tbB = true ∧
            (runTOps tbStore [TOp.rem tbA tbP tbB]).removed_triples.contains
              tbA tbP tbB = false) ∨
          (runTOps tbStore [TOp.rem tbA tbP tbB]).added_triples.contains
            tbA tbP tbB = true)) :=
  ⟨by decide, by decide, by decide, by decide,
    (claim_C2_isolation_commit tbHeap tbStore [TOp.rem tbA tbP tbB]
      (by decide) (by decide)).2.2 tbA tbP tbB
      (by decide) (by decide) (by decide)⟩

/-- C3: for every open `MutTransaction`, `len` is
`underlying.len + added.len - removed.len`, `contains` answers `true` for
triples in the added buffer, `false` for triples in the removed buffer, and
defers to the underlying store otherwise, and `iter` is exactly
`difference(underlying, removed)` chained with the added buffer; moreover
under the reachable-state invariant the `len` formula counts exactly the
triples `iter` yields. -/
theorem claim_C3_transaction_view (H : Nat → String)
    (st : IntTransactionGraph) (ops : List TOp) (hw : GraphWF H st.graph)
    (hops : ∀ op ∈ ops, TOpWF H op) :
    (runTOps st ops).len =
        (runTOps st ops).guard.graph.len +
          (runTOps st ops).added_triples.len -
          (runTOps st ops).removed_triples.len ∧
    (∀ s p o : Node,
      ((runTOps st ops).added_triples.contains s p o = true →
        (runTOps st ops).contains s p o = true) ∧
      ((runTOps st ops).added_triples.contains s p o = false →
        (runTOps st ops).removed_triples.contains s p o = true →
        (runTOps st ops).contains s p o = false) ∧
      ((runTOps st ops).added_triples.contains s p o = false →
        (runTOps st ops).removed_triples.contains s p o = false →
        (runTOps st ops).contains s p o =
          (runTOps st ops).guard.graph.contains s p o)) ∧
    (runTOps st ops).iter =
      setDifference (runTOps st ops).guard.graph
          (runTOps st ops).removed_triples ++
        (runTOps st ops).added_triples.triples ∧
    (runTOps st ops).len = (runTOps st ops).iter.length := by
  refine ⟨rfl, ?_, rfl, MutTransaction.len_eq_iter_length (runTOps_inv hw hops)⟩
  intro s p o
  refine ⟨?_, ?_, ?_⟩
  · intro h1
    unfold MutTransaction.contains
    simp [h1]
  · intro h1 h2
    unfold MutTransaction.contains
    simp [h1, h2]
  · intro h1 h2
    unfold MutTransaction.contains
    simp [h1, h2]

theorem claim_C3_transaction_view_witness :
    GraphWF tbHeap tbStore.graph ∧
      (runTOps tbStore [TOp.ins tbA tbP tbA]).len =
        (runTOps tbStore [TOp.ins tbA tbP tbA]).iter.length :=
  ⟨by decide, (claim_C3_transaction_view tbHeap tbStore
    [TOp.ins tbA tbP tbA] (by decide) (by decide)).2.2.2⟩

/-- C4: two non-blank nodes are equal iff their texts are equal; two blank
nodes are equal iff they share the same allocation (so a clone — the same
value, hence the same allocation — equals the original, while independently
created blank nodes with distinct allocations are never equal); a blank node
never equals a non-blank node; and the hash input is consistent with this
equality.  The hypothesis records the Rust fact that one allocation holds
one string. -/
theorem claim_C4_node_equality (a b : Node)
    (hwf : a.ref = b.ref → a.text = b.text) :
    (a.is_blank = false → b.is_blank = false →
      (a.beq b = true ↔ a.text = b.text)) ∧
    (a.is_blank = true → b.is_blank = true →
      (a.beq b = true ↔ a.ref = b.ref)) ∧
    (a.is_blank ≠ b.is_blank → a.beq b = false) ∧
    a.beq a = true ∧
    (a.beq b = true → a.hashInput = b.hashInput) := by
  refine ⟨?_, ?_, ?_, Node.beq_refl a, ?_⟩
  · intro ha hb
    unfold Node.beq
    simp [ha]
  · intro ha hb
    unfold Node.beq
    simp [ha]
  · intro hne
    cases ha : a.is_blank with
    | true =>
        have hb : b.is_blank = false := by
          cases hb : b.is_blank
          · rfl
          · exact absurd (ha.trans hb.symm) hne
        unfold Node.beq
        rw [ha, if_pos rfl]
        cases hr : a.ref == b.ref with
        | false => rfl
        | true =>
            exfalso
            have hrr : a.ref = b.ref := by simpa using hr
            have hta : a.text = "" := (Node.is_blank_iff a).mp ha
            have htb : b.text = "" := by
              rw [← hwf hrr, hta]
            exact absurd ((Node.is_blank_iff b).mpr htb) (by simp [hb])
    | false =>
        have hb : b.is_blank = true := by
          cases hb : b.is_blank
          · exact absurd (ha.trans hb.symm) hne
          · rfl
        unfold Node.beq
        rw [ha, if_neg (by simp)]
        cases ht : a.text == b.text with
        | false => rfl
        | true =>
            exfalso
            have htt : a.text = b.text := by simpa using ht
            have htb : b.text = "" := (Node.is_blank_iff b).mp hb
            exact absurd ((Node.is_blank_iff a).mpr (htt.trans htb))
              (by simp [ha])
  · intro hbeq
    unfold Node.beq at hbeq
    unfold Node.hashInput
    cases ha : a.is_blank with
    | true =>
        rw [ha] at hbeq
        simp only [if_true] at hbeq
        have hrr : a.ref = b.ref := by simpa using hbeq
        have hta : a.text = "" := (Node.is_blank_iff a).mp ha
        have htb : b.text = "" := by rw [← hwf hrr, hta]
        have hb : b.is_blank = true := (Node.is_blank_iff b).mpr htb
        simp [ha, hb, hrr]
    | false =>
        rw [ha] at hbeq
        simp only [Bool.false_eq_true, if_false] at hbeq
        have htt : a.text = b.text := by simpa using hbeq
        have hb : b.is_blank = false := by
          cases hb : b.is_blank
          · rfl
          · exfalso
            have htb : b.text = "" := (Node.is_blank_iff b).mp hb
            exact absurd ((Node.is_blank_iff a).mpr (htt.trans htb))
              (by simp [ha])
        simp [ha, hb, htt]

theorem claim_C4_node_equality_witness :
    (tbA.ref = tbB.ref → tbA.text = tbB.text) ∧
      ((tbA.is_blank = false → tbB.is_blank = false →
        (tbA.beq tbB = true ↔ tbA.text = tbB.text)) ∧
      (tbA.is_blank = true → tbB.is_blank = true →
        (tbA.beq tbB = true ↔ tbA.ref = tbB.ref)) ∧
      (tbA.is_blank ≠ tbB.is_blank → tbA.beq tbB = false) ∧
      tbA.beq tbA = true ∧
      (tbA.beq tbB = true → tbA.hashInput = tbB.hashInput)) :=
  ⟨by decide, claim_C4_node_equality tbA tbB (by decide)⟩

/-- C5: `CachedQuery::update` recomputes the stored result and the cached
revision exactly when the handle's revision is strictly greater than the
cached one, and changes nothing otherwise; concretely, a cached `len` query
over a 3-triple store reads 3, reads 4 after one committed transaction
adding one triple, and still reads 4 after a second `update` with no
intervening commit. -/
theorem claim_C5_cached_update :
    (∀ (T : Type) (c : CachedQuery T) (guard : IntTransactionGraph),
      (guard.revision > c.current_revision →
        c.update (ReadResult.ok guard) =
          { query := c.query, result := c.query guard.graph,
            current_revision := guard.revision }) ∧
      (¬ guard.revision > c.current_revision →
        c.update (ReadResult.ok guard) = c)) ∧
    tbCached.result = 3 ∧
    tbCommitted.revision = tbStore.revision + 1 ∧
    (tbCached.update (ReadResult.ok tbCommitted)).result = 4 ∧
    ((tbCached.update (ReadResult.ok tbCommitted)).update
        (ReadResult.ok tbCommitted) =
      tbCached.update (ReadResult.ok tbCommitted)) := by
  refine ⟨?_, by decide, by decide, by decide, rfl⟩
  intro T c guard
  constructor
  · intro h
    unfold CachedQuery.update
    simp [h]
  · intro h
    unfold CachedQuery.update
    simp [h]

theorem claim_C5_cached_update_witness :
    tbCommitted.revision > tbCached.current_revision ∧
      tbCached.update (ReadResult.ok tbCommitted) =
        { query := tbCached.query,
          result := tbCached.query tbCommitted.graph,
          current_revision := tbCommitted.revision } :=
  ⟨by decide,
    (claim_C5_cached_update.1 Nat tbCached tbCommitted).1 (by decide)⟩

/-- C6 counterexample: the claim "every subsequent access through a handle
with a poisoned lock — including `CachedQuery::update` — fails loudly and
never silently returns stale data" is false at a concrete cached query:
`update` on a poisoned lock returns normally with the stale cache (the
`if let Ok(guard)` in src/transaction/mod.rs:232 swallows the error), which
is not the panic outcome. -/
theorem claim_C6_counterexample :
    cachedUpdateOutcome tbCached ReadResult.poisoned = Outcome.ok tbCached ∧
      Outcome.ok tbCached ≠ (Outcome.panic : Outcome (CachedQuery Nat)) :=
  ⟨rfl, fun h => Outcome.noConfusion h⟩

/-- C6 (amended): under a poisoned lock, `transaction`, `mut_transaction`,
their `try_` variants and `cached_query`/`try_cached_query` all panic — but
`CachedQuery::update` silently returns with the cached result and revision
unchanged instead of failing loudly. -/
theorem claim_C6_amended_poisoned_access :
    transactionAccess ReadResult.poisoned = Outcome.panic ∧
    mutTransactionAccess ReadResult.poisoned = Outcome.panic ∧
    tryTransactionAccess TryReadResult.poisoned = Outcome.panic ∧
    tryMutTransactionAccess TryReadResult.poisoned = Outcome.panic ∧
    (∀ (T : Type) (q : HashGraph → T),
      cachedQueryAccess q ReadResult.poisoned = Outcome.panic) ∧
    (∀ (T : Type) (q : HashGraph → T),
      tryCachedQueryAccess q TryReadResult.poisoned = Outcome.panic) ∧
    (∀ (T : Type) (c : CachedQuery T),
      c.update ReadResult.poisoned = c ∧
        cachedUpdateOutcome c ReadResult.poisoned = Outcome.ok c) :=
  ⟨rfl, rfl, rfl, rfl, fun _ _ => rfl, fun _ _ => rfl, fun _ _ => ⟨rfl, rfl⟩⟩

/-- C7: for every `HashGraph` reachable by any sequence of `insert`,
`remove`, `retain` and `extend` calls — including states where `remove` left
an empty adjacency entry — `len` equals the number of triples the iterator
yields, the optimized `contains` agrees with the iteration-based containment
definition, and `is_empty` is equivalent to `len == 0`. -/
theorem claim_C7_hash_graph_coherence (H : Nat → String) (ops : List GOp)
    (hops : ∀ op ∈ ops, GOpWF H op) :
    (runGOps ops).len = (runGOps ops).triples.length ∧
    ((runGOps ops).is_empty = true ↔ (runGOps ops).len = 0) ∧
    (∀ s p o : Node, NodeWF H s → NodeWF H p → NodeWF H o →
      (runGOps ops).contains s p o = (runGOps ops).iterContains s p o) :=
  ⟨HashGraph.len_eq_triples_length _, HashGraph.is_empty_iff_len _,
    fun _ _ _ hs hp ho =>
      HashGraph.contains_eq_iterContains (runGOps_wf hops) hs hp ho⟩

theorem claim_C7_hash_graph_coherence_witness :
    (∀ op ∈ [GOp.ins tbA tbP tbB, GOp.rem tbA tbP tbB,
        GOp.ext [(tbB, tbQ, tbC)]], GOpWF tbHeap op) ∧
      ((runGOps [GOp.ins tbA tbP tbB, GOp.rem tbA tbP tbB,
          GOp.ext [(tbB, tbQ, tbC)]]).is_empty = true ↔
        (runGOps [GOp.ins tbA tbP tbB, GOp.rem tbA tbP tbB,
          GOp.ext [(tbB, tbQ, tbC)]]).len = 0) :=
  ⟨by decide, (claim_C7_hash_graph_coherence tbHeap
    [GOp.ins tbA tbP tbB, GOp.rem tbA tbP tbB, GOp.ext [(tbB, tbQ, tbC)]]
    (by decide)).2.1⟩

/-- C8: collecting `union(A, B)` into a fresh graph yields a graph whose
length is `length(A)` plus the length of `difference(B, A)`, and which
contains every triple of `A` and every triple of `B`. -/
theorem claim_C8_union_collect (H : Nat → String) (A B : HashGraph)
    (hwA : GraphWF H A) (hwB : GraphWF H B) :
    (HashGraph.fromTriples (setUnion A B)).len =
        A.len + (setDifference B A).length ∧
    (∀ t ∈ A.triples,
      (HashGraph.fromTriples (setUnion A B)).contains t.1 t.2.1 t.2.2 = true) ∧
    (∀ t ∈ B.triples,
      (HashGraph.fromTriples (setUnion A B)).contains t.1 t.2.1 t.2.2 =
        true) := by
  have hwu := setUnion_triples_wf hwA hwB
  have hnd := setUnion_keys_nodup hwA hwB
  have hUwf := HashGraph.fromTriples_wf hwu
  refine ⟨?_, ?_, ?_⟩
  · rw [HashGraph.fromTriples_len hwu hnd]
    unfold setUnion
    rw [List.length_append, HashGraph.len_eq_triples_length]
  · intro t ht
    have hwf := tripleWF_of_mem hwA ht
    apply (HashGraph.contains_iff_key_mem hUwf hwf.1 hwf.2.1 hwf.2.2).mpr
    rw [HashGraph.fromTriples_key_mem hwu]
    exact List.mem_map.mpr ⟨t, List.mem_append.mpr (Or.inl ht), rfl⟩
  · intro t ht
    have hwf := tripleWF_of_mem hwB ht
    apply (HashGraph.contains_iff_key_mem hUwf hwf.1 hwf.2.1 hwf.2.2).mpr
    rw [HashGraph.fromTriples_key_mem hwu]
    rcases Classical.em (tripleKey t ∈ A.triples.map tripleKey) with hk | hk
    · rcases List.mem_map.mp hk with ⟨u, hu, hku⟩
      exact List.mem_map.mpr ⟨u, List.mem_append.mpr (Or.inl hu), hku⟩
    · have hcond : A.contains t.1 t.2.1 t.2.2 = false := by
        rw [← Bool.not_eq_true,
          HashGraph.contains_iff_key_mem hwA hwf.1 hwf.2.1 hwf.2.2]
        exact hk
      refine List.mem_map.mpr ⟨t, List.mem_append.mpr (Or.inr ?_), rfl⟩
      exact List.mem_filter.mpr ⟨ht, by simp [hcond]⟩

theorem claim_C8_union_collect_witness :
    GraphWF tbHeap tbGraph ∧ GraphWF tbHeap tbOther ∧
      (HashGraph.fromTriples (setUnion tbGraph tbOther)).len =
        tbGraph.len + (setDifference tbOther tbGraph).length :=
  ⟨by decide, by decide,
    (claim_C8_union_collect tbHeap tbGraph tbOther (by decide) (by decide)).1⟩

/-- C9: `is_valid_graph` returns `true` iff no triple of the graph has a
literal subject or a non-IRI predicate; `sanitize` keeps exactly the
well-formed triples, reducing `len` by exactly the number of violating
triples; and after `sanitize` the graph satisfies `is_valid_graph`.  The
node classification is the spec-modelled pair of external predicates. -/
theorem claim_C9_validity_sanitize (C : NodeClass) (g : HashGraph) :
    (g.is_valid_graph C = true ↔
      ¬ ∃ t ∈ g.triples, (C.lit t.1 = true ∨ C.iri t.2.1 = false)) ∧
    (∀ t : Triple, t ∈ (g.sanitize C).triples ↔
      (t ∈ g.triples ∧ ¬(C.lit t.1 = true ∨ C.iri t.2.1 = false))) ∧
    ((g.sanitize C).len +
        (g.triples.filter (fun t => C.lit t.1 || !(C.iri t.2.1))).length =
      g.len) ∧
    (g.sanitize C).is_valid_graph C = true := by
  have hfun : ∀ t : Triple,
      ((!(C.lit t.1) && C.iri t.2.1) = true ↔
        ¬(C.lit t.1 = true ∨ C.iri t.2.1 = false)) := by
    intro t
    cases hl : C.lit t.1 <;> cases hi : C.iri t.2.1 <;> simp
  refine ⟨?_, ?_, ?_, ?_⟩
  · unfold HashGraph.is_valid_graph
    rw [List.all_eq_true]
    constructor
    · rintro hall ⟨t, ht, hbad⟩
      exact absurd hbad ((hfun t).mp (hall t ht))
    · intro hne t ht
      apply (hfun t).mpr
      intro hbad
      exact hne ⟨t, ht, hbad⟩
  · intro t
    unfold HashGraph.sanitize
    rw [HashGraph.retain_triples, List.mem_filter]
    rw [hfun t]
  · unfold HashGraph.sanitize
    rw [HashGraph.len_eq_triples_length, HashGraph.len_eq_triples_length,
      HashGraph.retain_triples]
    have hneg : (g.triples.filter
        (fun t => C.lit t.1 || !(C.iri t.2.1))) =
        (g.triples.filter
          (fun t => !(!(C.lit t.1) && C.iri t.2.1))) := by
      apply List.filter_congr
      intro t _
      cases hl : C.lit t.1 <;> cases hi : C.iri t.2.1 <;> rfl
    rw [hneg]
    exact (List.length_eq_length_filter_add
      (fun t : Triple => !(C.lit t.1) && C.iri t.2.1)).symm
  · unfold HashGraph.is_valid_graph HashGraph.sanitize
    rw [HashGraph.retain_triples, List.all_eq_true]
    intro t ht
    exact (List.mem_filter.mp ht).2

/-- C10 (implicit): a node built from the empty string is blank and follows
blank-node identity semantics — two nodes independently constructed from the
empty string (distinct allocations) are never equal although their texts
are, while a clone (the same allocation) equals the original; and since
`is_blank` is determined by the text alone, no node with empty text is
non-blank. -/
theorem claim_C10_empty_text_blank (r1 r2 : Nat) :
    (Node.fromStr "" r1).is_blank = true ∧
    (r1 ≠ r2 → (Node.fromStr "" r1).beq (Node.fromStr "" r2) = false) ∧
    (Node.fromStr "" r1).beq (Node.fromStr "" r1) = true ∧
    (∀ n : Node, n.text = "" → n.is_blank = true) := by
  refine ⟨rfl, ?_, Node.beq_refl _, ?_⟩
  · intro hne
    unfold Node.fromStr Node.beq Node.is_blank
    simp
    exact ⟨rfl, hne⟩
  · intro n hn
    exact (Node.is_blank_iff n).mpr hn

theorem claim_C10_empty_text_blank_witness :
    ((0 : Nat) ≠ 1) ∧
      (Node.fromStr "" 0).beq (Node.fromStr "" 1) = false ∧
      tbC.text = "" ∧ tbC.is_blank = true :=
  ⟨by decide, (claim_C10_empty_text_blank 0 1).2.1 (by decide), rfl,
    (claim_C10_empty_text_blank 0 1).2.2.2 tbC rfl⟩
